import Mathlib

/-!
# nng: waitblock and the perf benchmark driver

A shallow embedding of `src/core/waitblock.c` and of the command-line and
callback logic of `perf/perf.c`, with the properties proved about them.

Conventions.

* A C string is the list of its characters before the terminating NUL.  Reads
  through a `char *` are bounds-checked: index `length` yields NUL, any index
  beyond it yields `none`.
* `die` ends the process with status 2; a function that may call it returns
  `Except Nat _`, the error being the exit status.
* `int` is 32 bits wide, two's complement; arithmetic on it is wrapped
  explicitly with `wrap32`.
-/

namespace Nng

/-! ## src/core/waitblock.c -/

/-- The waitblock of `waitblock.h`.  The mutex and the condition variable carry
no data of their own; what a thread observes under the lock is `wb_done`. -/
structure nni_waitblock where
  wb_done : Bool
  deriving DecidableEq, Repr

/-- `nni_waitblock_init`: `wb->wb_done = false`, whatever the memory held. -/
def nni_waitblock_init (_wb : nni_waitblock) : nni_waitblock :=
  { wb_done := false }

/-- `nni_waitblock_reset`: under the lock, `wb->wb_done = false`. -/
def nni_waitblock_reset (_wb : nni_waitblock) : nni_waitblock :=
  { wb_done := false }

/-- `nni_waitblock_done`: under the lock, `wb->wb_done = true` (the wake-up it
issues is the `wake` event a waiter sees afterwards). -/
def nni_waitblock_done (_wb : nni_waitblock) : nni_waitblock :=
  { wb_done := true }

/-- What can happen to a waitblock while a waiter sleeps in `nni_cv_wait` with
the lock released: another thread runs `init`, `reset` or `done`, or the waiter
is woken (by `nni_cv_wake` or spuriously) and holds the lock again. -/
inductive WbEvent where
  | init
  | reset
  | done
  | wake
  deriving DecidableEq, Repr

/-- Effect of one event on the waitblock; a wake-up writes nothing. -/
def WbEvent.apply (wb : nni_waitblock) : WbEvent → nni_waitblock
  | .init => nni_waitblock_init wb
  | .reset => nni_waitblock_reset wb
  | .done => nni_waitblock_done wb
  | .wake => wb

/-- Effect of a sequence of events, oldest first. -/
def WbEvent.run (wb : nni_waitblock) (evs : List WbEvent) : nni_waitblock :=
  evs.foldl WbEvent.apply wb

/-- The waiter inside `nni_cv_wait`, in the loop
`while (!wb->wb_done) nni_cv_wait(&wb->wb_cv)`: it sleeps through the events of
other threads; each wake-up re-evaluates the loop condition under the lock and
either leaves the loop or sleeps again.  `none`: the events run out while the
waiter is still asleep, so the call never returns. -/
def wait_blocked : nni_waitblock → List WbEvent → Option (nni_waitblock × List WbEvent)
  | _, [] => none
  | wb, .wake :: rest => if wb.wb_done then some (wb, rest) else wait_blocked wb rest
  | wb, e :: rest => wait_blocked (WbEvent.apply wb e) rest

/-- `nni_waitblock_wait`: lock, loop on `!wb->wb_done` around `nni_cv_wait`,
unlock.  Returns the waitblock as it is when the call returns, and the events
that had not happened yet. -/
def nni_waitblock_wait (wb : nni_waitblock) (evs : List WbEvent) :
    Option (nni_waitblock × List WbEvent) :=
  if wb.wb_done then some (wb, evs) else wait_blocked wb evs

/-- A `done` has happened in the trace, and no `init` or `reset` after it. -/
def DoneSinceReset (tr : List WbEvent) : Prop :=
  ∃ pre post, tr = pre ++ WbEvent.done :: post ∧ WbEvent.init ∉ post ∧ WbEvent.reset ∉ post

/-- Number of times the flag goes from false to true along a trace. -/
def risingEdges : nni_waitblock → List WbEvent → Nat
  | _, [] => 0
  | wb, e :: rest =>
    (if wb.wb_done = false ∧ (WbEvent.apply wb e).wb_done = true then 1 else 0)
      + risingEdges (WbEvent.apply wb e) rest

/-! ### The waitblock shared by several threads

`nni_mtx_lock`, `nni_mtx_unlock`, `nni_cv_wait` and `nni_cv_wake` belong to the
platform layer, which is not among the sources; they are modelled below.  A
thread is a natural number; each thread is at one program point of
`nni_waitblock_wait` or `nni_waitblock_done`, or outside any call. -/

/-- Program points of a thread, named after the statement it executes next. -/
inductive Pc where
  | idle          -- outside any call
  | wait_lock     -- nni_waitblock_wait: nni_mtx_lock(&wb->wb_mtx)
  | wait_test     -- nni_waitblock_wait: while (!wb->wb_done), lock held
  | wait_cvwait   -- nni_waitblock_wait: nni_cv_wait(&wb->wb_cv), the call, lock held
  | wait_sleep    -- nni_waitblock_wait: inside nni_cv_wait, asleep, lock released
  | wait_relock   -- nni_waitblock_wait: inside nni_cv_wait, woken, taking the lock again
  | wait_unlock   -- nni_waitblock_wait: nni_mtx_unlock(&wb->wb_mtx)
  | returned      -- nni_waitblock_wait has returned
  | done_lock     -- nni_waitblock_done: nni_mtx_lock(&wb->wb_mtx)
  | done_set      -- nni_waitblock_done: wb->wb_done = true, lock held
  | done_wake     -- nni_waitblock_done: nni_cv_wake(&wb->wb_cv), lock held
  | done_unlock   -- nni_waitblock_done: nni_mtx_unlock(&wb->wb_mtx)
  deriving DecidableEq, Repr

/-- The program points at which a thread owns `wb_mtx`. -/
def Pc.holds : Pc → Bool
  | .wait_test | .wait_cvwait | .wait_unlock | .done_set | .done_wake | .done_unlock => true
  | _ => false

/-- The program points inside `nni_waitblock_wait`. -/
def Pc.inWait : Pc → Bool
  | .wait_lock | .wait_test | .wait_cvwait | .wait_sleep | .wait_relock | .wait_unlock => true
  | _ => false

/-- One waitblock and the threads that use it: the flag, the owner of the
mutex (if any) and the program point of every thread. -/
structure WbSys where
  wb_done : Bool
  wb_mtx : Option Nat
  pc : Nat → Pc

/-- A waitblock after `nni_waitblock_init`, no thread inside a call yet. -/
def WbSys.fresh : WbSys :=
  { wb_done := (nni_waitblock_init ⟨false⟩).wb_done, wb_mtx := none, pc := fun _ => Pc.idle }

/-- Modelled from the spec: `nni_mtx_lock` (platform layer, not in the sources),
the mutex of "a mutex, a condition variable, and a done flag".  Thread `t` takes
the free mutex and moves on to `next`; while another thread owns it, `t` stays
where it is. -/
def nni_mtx_lock (s : WbSys) (t : Nat) (next : Pc) : WbSys :=
  if s.wb_mtx = none then { s with wb_mtx := some t, pc := Function.update s.pc t next }
  else s

/-- Modelled from the spec: `nni_mtx_unlock` (platform layer, not in the
sources): the owner releases the mutex and moves on to `next`. -/
def nni_mtx_unlock (s : WbSys) (t : Nat) (next : Pc) : WbSys :=
  { s with wb_mtx := none, pc := Function.update s.pc t next }

/-- Modelled from the spec: `nni_cv_wait` (platform layer, not in the sources),
"blocks the calling thread ... observed under the lock": the caller, who owns
the mutex, releases it and falls asleep in one step (the contract of a
condition variable); it holds the mutex again when the call returns. -/
def nni_cv_wait (s : WbSys) (t : Nat) : WbSys :=
  { s with wb_mtx := none, pc := Function.update s.pc t Pc.wait_sleep }

/-- Modelled from the spec: `nni_cv_wake` (platform layer, not in the sources),
"wakes every waiter": every thread asleep on the condition variable is made to
take the mutex again. -/
def nni_cv_wake (s : WbSys) : WbSys :=
  { s with pc := fun u => if s.pc u = Pc.wait_sleep then Pc.wait_relock else s.pc u }

/-- Thread `t` executes the statement at its program point.  The test of the
loop condition (waitblock.c:39) and the call of `nni_cv_wait` (waitblock.c:40)
are two steps: other threads may run between them, and only the mutex keeps
them from writing the flag there. -/
def WbSys.step (s : WbSys) (t : Nat) : WbSys :=
  match s.pc t with
  | .idle => s
  | .returned => s
  | .wait_lock => nni_mtx_lock s t Pc.wait_test
  | .wait_test =>
    if s.wb_done then { s with pc := Function.update s.pc t Pc.wait_unlock }
    else { s with pc := Function.update s.pc t Pc.wait_cvwait }
  | .wait_cvwait => nni_cv_wait s t
  | .wait_sleep => s
  | .wait_relock => nni_mtx_lock s t Pc.wait_test
  | .wait_unlock => nni_mtx_unlock s t Pc.returned
  | .done_lock => nni_mtx_lock s t Pc.done_set
  | .done_set =>
    { s with wb_done := (nni_waitblock_done ⟨s.wb_done⟩).wb_done,
             pc := Function.update s.pc t Pc.done_wake }
  | .done_wake =>
    let s1 := nni_cv_wake s
    { s1 with pc := Function.update s1.pc t Pc.done_unlock }
  | .done_unlock => nni_mtx_unlock s t Pc.idle

/-- What the scheduler and the environment can do. -/
inductive Act where
  | call_wait (t : Nat)   -- thread t, outside any call, calls nni_waitblock_wait
  | call_done (t : Nat)   -- thread t, outside any call, calls nni_waitblock_done
  | step (t : Nat)        -- thread t executes its next statement
  | spurious (t : Nat)    -- thread t, asleep in nni_cv_wait, wakes up spuriously
  deriving DecidableEq, Repr

/-- Effect of one action; an action that is not possible changes nothing. -/
def WbSys.act (s : WbSys) : Act → WbSys
  | .call_wait t =>
    if s.pc t = Pc.idle ∨ s.pc t = Pc.returned then
      { s with pc := Function.update s.pc t Pc.wait_lock }
    else s
  | .call_done t =>
    if s.pc t = Pc.idle ∨ s.pc t = Pc.returned then
      { s with pc := Function.update s.pc t Pc.done_lock }
    else s
  | .step t => s.step t
  | .spurious t =>
    if s.pc t = Pc.wait_sleep then { s with pc := Function.update s.pc t Pc.wait_relock }
    else s

/-- Effect of an interleaving, oldest action first. -/
def WbSys.exec (s : WbSys) (acts : List Act) : WbSys :=
  acts.foldl WbSys.act s

/-- Threads `0 .. n-1` call `nni_waitblock_wait` one after the other and fall
asleep in `nni_cv_wait`. -/
def sleepAll : Nat → List Act
  | 0 => []
  | n + 1 => sleepAll n ++ [Act.call_wait n, Act.step n, Act.step n, Act.step n]

/-- Threads `0 .. n-1` each execute three statements, one thread after the
other. -/
def resumeAll : Nat → List Act
  | 0 => []
  | n + 1 => resumeAll n ++ [Act.step n, Act.step n, Act.step n]

/-- A complete call of `nni_waitblock_done` by thread `d`, uninterrupted. -/
def doneCall (d : Nat) : List Act :=
  [Act.call_done d, Act.step d, Act.step d, Act.step d, Act.step d]

/-- What holds in every state the threads can reach: the mutex is owned by
exactly the thread that is at a program point inside a critical section; past
the assignment in `nni_waitblock_done` and past the loop in
`nni_waitblock_wait` the flag is true; a thread is asleep with the flag true
only while a `nni_waitblock_done` is about to issue its wake-up; a thread that
has found the flag false and is about to call `nni_cv_wait` still has it
false. -/
structure WbSys.Inv (s : WbSys) : Prop where
  mutex : ∀ t, s.wb_mtx = some t ↔ (s.pc t).holds = true
  flag : ∀ t, s.pc t = Pc.done_wake ∨ s.pc t = Pc.done_unlock ∨ s.pc t = Pc.wait_unlock →
    s.wb_done = true
  asleep : ∀ t, s.pc t = Pc.wait_sleep → s.wb_done = true → ∃ d, s.pc d = Pc.done_wake
  parked : ∀ t, s.pc t = Pc.wait_cvwait → s.wb_done = false

/-! ## perf/perf.c: command line -/

/-- Reading `s[i]` through a `char *`: the characters, then the terminating
NUL; `none` beyond the terminator (outside the object). -/
def cstr_read (s : List Char) (i : Nat) : Option Char :=
  if i < s.length then some (s.getD i '\x00')
  else if i = s.length then some '\x00'
  else none

/-- The scan of `strchr` over the rest of the string, whose first character
has index `i`: the index of the first `c`, or `none` for a null pointer when the
terminator comes first (the terminator itself matches `c = NUL`). -/
def strchr_from : List Char → Nat → Char → Option Nat
  | [], i, c => if c = '\x00' then some i else none
  | x :: xs, i, c => if x = c then some i else strchr_from xs (i + 1) c

/-- The libc `strchr(s + p, c)`, as an index into `s`.  The outer `none`: `p` is
beyond the terminator, the scan would start outside the string. -/
def strchr (s : List Char) (p : Nat) (c : Char) : Option (Option Nat) :=
  if p ≤ s.length then some (strchr_from (s.drop p) p c) else none

/-- The libc `tolower` in the "C" locale: `A`..`Z` to `a`..`z`, every other
character unchanged. -/
def tolower (c : Char) : Char :=
  if 65 ≤ c.toNat ∧ c.toNat ≤ 90 then Char.ofNat (c.toNat + 32) else c

/-- The first loop of `matches`:
`while ((x = strchr(ptr, '/')) || (x = strchr(ptr, '\\')) || (x = strchr(ptr, ':'))) ptr = x + 1;`
one iteration per unit of fuel.  `none`: a read outside the string, or the fuel
ran out before the loop ended. -/
def skip_dirs : Nat → List Char → Nat → Option Nat
  | 0, _, _ => none
  | fuel + 1, arg, ptr =>
    match strchr arg ptr '/' with
    | none => none
    | some (some x) => skip_dirs fuel arg (x + 1)
    | some none =>
      match strchr arg ptr '\\' with
      | none => none
      | some (some x) => skip_dirs fuel arg (x + 1)
      | some none =>
        match strchr arg ptr ':' with
        | none => none
        | some (some x) => skip_dirs fuel arg (x + 1)
        | some none => some ptr

/-- The second loop of `matches` and the `switch` after it.  `name` is the part
of the name not compared yet (`*name == 0` when it is empty), `ptr` an index
into `arg`.  `none`: a read of `arg` beyond its terminator. -/
def matches_cmp (arg : List Char) : Nat → List Char → Option Bool
  | ptr, [] =>
    match cstr_read arg ptr with
    | none => none
    | some c => some (c = '\x00' || c = '.')
  | ptr, n :: name =>
    match cstr_read arg ptr with
    | none => none
    | some c => if tolower c ≠ n then some false else matches_cmp arg (ptr + 1) name

/-- The function `matches(arg, name)` of perf.c (`matches` is reserved in Lean).
The first loop runs at most once per character of `arg`, plus the final test. -/
def perf_matches (arg name : List Char) : Option Bool :=
  match skip_dirs (arg.length + 1) arg 0 with
  | none => none
  | some ptr => matches_cmp arg ptr name

/-- Is `c` one of the separators `/`, `\` and `:`. -/
def isSep (c : Char) : Bool := c = '/' || c = '\\' || c = ':'

/-- From the claim's words: the part of `arg` after the last occurrence of any
of `/`, `\` and `:`, the whole of `arg` when there is none. -/
def lastComponent (arg : List Char) : List Char :=
  (arg.reverse.takeWhile (fun c => !isSep c)).reverse

/-- From the claim's words: `arg`'s last component, in lower case, is `name`,
or starts with `name` immediately followed by `.`. -/
def NameMatches (arg name : List Char) : Prop :=
  (lastComponent arg).map tolower = name ∨
    ∃ ext, (lastComponent arg).map tolower = name ++ '.' :: ext

/-- Width of `int` in perf.c's arithmetic. -/
def wrap32 (v : Int) : Int := (v + 2 ^ 31) % 2 ^ 32 - 2 ^ 31

/-- Conversion to `size_t` (64 bits). -/
def to_size_t (v : Int) : Nat := (v % 2 ^ 64).toNat

/-- The libc `isspace` in the "C" locale. -/
def isspace (c : Char) : Bool :=
  c = ' ' || c = '\t' || c = '\n' || c = '\x0b' || c = '\x0c' || c = '\r'

/-- The libc `isdigit`. -/
def isdigit (c : Char) : Bool := 48 ≤ c.toNat && c.toNat ≤ 57

/-- Value of a string of decimal digits. -/
def decimal (ds : List Char) : Nat :=
  ds.foldl (fun acc d => acc * 10 + (d.toNat - 48)) 0

/-- The libc `strtol(arg, &eptr, 10)` for a `long` of `long_bits` bits: skip
white space, an optional sign, then decimal digits; the value is clamped to the
range of `long`; returns the value and the offset of `eptr` in `arg`.  Without
any digit nothing is converted: the value is 0 and `eptr == arg`. -/
def strtol (long_bits : Nat) (arg : List Char) : Int × Nat :=
  let ws := arg.takeWhile isspace
  let r1 := arg.dropWhile isspace
  let neg : Bool := r1.head? = some '-'
  let sg : Nat := if r1.head? = some '-' ∨ r1.head? = some '+' then 1 else 0
  let r2 := r1.drop sg
  let ds := r2.takeWhile isdigit
  if ds = [] then (0, 0)
  else
    let v : Int := if neg then - (decimal ds : Int) else (decimal ds : Int)
    let lmax : Int := 2 ^ (long_bits - 1) - 1
    let lmin : Int := - 2 ^ (long_bits - 1)
    (max lmin (min lmax v), ws.length + sg + ds.length)

deriving instance DecidableEq for Except

/-- Exit status of `die`: it prints the message and calls `exit(2)`. -/
def die_status : Nat := 2

/-- The function `parse_int` of perf.c: `die` unless the whole argument is a
number between 0 and `1 << 30`; otherwise `(int) val`. -/
def parse_int (long_bits : Nat) (arg : List Char) : Except Nat Int :=
  let r := strtol long_bits arg
  let val := r.1
  let eptr := r.2
  if val < 0 ∨ val > 2 ^ 30 ∨ (arg.drop eptr).headD '\x00' ≠ '\x00' ∨ eptr = 0 then
    Except.error die_status
  else Except.ok (wrap32 val)

/-- The test a mode handler starts once its arguments are accepted; sockets are
opened by these functions only. -/
inductive Started where
  | latency_server (addr : List Char) (msgsize : Nat) (trips : Int)
  | latency_client (addr : List Char) (msgsize : Nat) (trips : Int)
  | throughput_server (addr : List Char) (msgsize : Nat) (count : Int)
  | throughput_client (addr : List Char) (msgsize : Nat) (count : Int)
  /-- A thread running `latency_server` on `inproc://latency_test`, then
  `latency_client` on the same address. -/
  | inproc_lat (msgsize : Nat) (count : Int)
  /-- A thread running `throughput_server` on `inproc://tput_test`, then
  `throughput_client` on the same address. -/
  | inproc_thr (msgsize : Nat) (count : Int)
  deriving DecidableEq, Repr

/-- `do_local_lat(argc, argv)`, `argc` being the length of `argv`. -/
def do_local_lat (long_bits : Nat) (argv : List (List Char)) : Except Nat Started :=
  match argv with
  | [a0, a1, a2] =>
    match parse_int long_bits a1 with
    | Except.error e => Except.error e
    | Except.ok msgsize =>
      match parse_int long_bits a2 with
      | Except.error e => Except.error e
      | Except.ok trips => Except.ok (Started.latency_server a0 (to_size_t msgsize) (wrap32 trips))
  | _ => Except.error die_status

/-- `do_remote_lat(argc, argv)`. -/
def do_remote_lat (long_bits : Nat) (argv : List (List Char)) : Except Nat Started :=
  match argv with
  | [a0, a1, a2] =>
    match parse_int long_bits a1 with
    | Except.error e => Except.error e
    | Except.ok msgsize =>
      match parse_int long_bits a2 with
      | Except.error e => Except.error e
      | Except.ok trips => Except.ok (Started.latency_client a0 (to_size_t msgsize) trips)
  | _ => Except.error die_status

/-- `do_local_thr(argc, argv)`. -/
def do_local_thr (long_bits : Nat) (argv : List (List Char)) : Except Nat Started :=
  match argv with
  | [a0, a1, a2] =>
    match parse_int long_bits a1 with
    | Except.error e => Except.error e
    | Except.ok msgsize =>
      match parse_int long_bits a2 with
      | Except.error e => Except.error e
      | Except.ok trips => Except.ok (Started.throughput_server a0 (to_size_t msgsize) trips)
  | _ => Except.error die_status

/-- `do_remote_thr(argc, argv)`. -/
def do_remote_thr (long_bits : Nat) (argv : List (List Char)) : Except Nat Started :=
  match argv with
  | [a0, a1, a2] =>
    match parse_int long_bits a1 with
    | Except.error e => Except.error e
    | Except.ok msgsize =>
      match parse_int long_bits a2 with
      | Except.error e => Except.error e
      | Except.ok trips => Except.ok (Started.throughput_client a0 (to_size_t msgsize) trips)
  | _ => Except.error die_status

/-- `do_inproc_lat(argc, argv)`, up to the creation of the server thread. -/
def do_inproc_lat (long_bits : Nat) (argv : List (List Char)) : Except Nat Started :=
  match argv with
  | [a0, a1] =>
    match parse_int long_bits a0 with
    | Except.error e => Except.error e
    | Except.ok msgsize =>
      match parse_int long_bits a1 with
      | Except.error e => Except.error e
      | Except.ok count => Except.ok (Started.inproc_lat (to_size_t msgsize) count)
  | _ => Except.error die_status

/-- `do_inproc_thr(argc, argv)`, up to the creation of the server thread. -/
def do_inproc_thr (long_bits : Nat) (argv : List (List Char)) : Except Nat Started :=
  match argv with
  | [a0, a1] =>
    match parse_int long_bits a0 with
    | Except.error e => Except.error e
    | Except.ok msgsize =>
      match parse_int long_bits a1 with
      | Except.error e => Except.error e
      | Except.ok count => Except.ok (Started.inproc_thr (to_size_t msgsize) count)
  | _ => Except.error die_status

/-- The expression `matches(prog, a) || matches(prog, b)`: the second call is
made only when the first returns false. -/
def matches_either (prog a b : List Char) : Option Bool :=
  match perf_matches prog a with
  | none => none
  | some true => some true
  | some false => perf_matches prog b

/-- The `if`/`else if` chain of `main` that picks the mode handler for `prog`
and calls it on the remaining arguments.  `none`: undefined behaviour in
`matches`. -/
def dispatch (long_bits : Nat) (prog : List Char) (args : List (List Char)) :
    Option (Except Nat Started) :=
  match matches_either prog "remote_lat".toList "latency_client".toList with
  | none => none
  | some true => some (do_remote_lat long_bits args)
  | some false =>
  match matches_either prog "local_lat".toList "latency_server".toList with
  | none => none
  | some true => some (do_local_lat long_bits args)
  | some false =>
  match matches_either prog "local_thr".toList "throughput_server".toList with
  | none => none
  | some true => some (do_local_thr long_bits args)
  | some false =>
  match matches_either prog "remote_thr".toList "throughput_client".toList with
  | none => none
  | some true => some (do_remote_thr long_bits args)
  | some false =>
  match perf_matches prog "inproc_thr".toList with
  | none => none
  | some true => some (do_inproc_thr long_bits args)
  | some false =>
  match perf_matches prog "inproc_lat".toList with
  | none => none
  | some true => some (do_inproc_lat long_bits args)
  | some false => some (Except.error die_status)

/-- The function `main(argc, argv)` of perf.c, `argc` being the length of
`argv`.  `none`: undefined behaviour (`argv[0]` is a null pointer when `argv` is
empty). -/
def main (long_bits : Nat) (argv : List (List Char)) : Option (Except Nat Started) :=
  if 3 ≤ argv.length ∧ argv.get? 1 = some "-m".toList then
    dispatch long_bits (argv.getD 2 []) (argv.drop 3)
  else
    match argv with
    | [] => none
    | prog :: rest => dispatch long_bits prog rest

/-- The names `main` tests `prog` against. -/
def modeNames : List (List Char) :=
  ["remote_lat".toList, "latency_client".toList, "local_lat".toList,
   "latency_server".toList, "local_thr".toList, "throughput_server".toList,
   "remote_thr".toList, "throughput_client".toList, "inproc_thr".toList,
   "inproc_lat".toList]

/-- An `nng_msg`: its body. -/
abbrev Msg := List Nat

/-- The struct `tput_srv_data`, with the record of the socket calls. -/
structure tput_srv_data where
  trips : Int
  msgsize : Nat
  done : Bool
  /-- number of `nng_recv_aio(d->s, aio)` submitted -/
  recvs : Nat
  deriving DecidableEq, Repr

/-- `tput_srv_cb`, `rv` being `nng_aio_result(d->aio)` and `msg` the message of
the completed receive. -/
def tput_srv_cb (d : tput_srv_data) (rv : Int) (msg : Msg) : Except Nat tput_srv_data :=
  if rv ≠ 0 then Except.error die_status
  else if msg.length ≠ d.msgsize then Except.error die_status
  else
    let trips := wrap32 (d.trips - 1)
    if trips = 0 then Except.ok { d with trips := trips, done := true }
    else Except.ok { d with trips := trips, recvs := d.recvs + 1 }

/-- The callback of the throughput server as the socket drives it: while `done`
is not set a receive is in flight and completes with the next incoming
message. -/
def tput_srv_run : tput_srv_data → List Msg → Except Nat tput_srv_data
  | d, [] => Except.ok d
  | d, m :: ms =>
    if d.done then Except.ok d
    else
      match tput_srv_cb d 0 m with
      | Except.error e => Except.error e
      | Except.ok d1 => tput_srv_run d1 ms

/-- `throughput_server` up to the end of its wait loop, on the messages that
arrive: `d.trips = count`, `d.msgsize = msgsize`, the synchronisation message
taken with `nng_recvmsg` and freed unseen (with no message at all the call
blocks there, nothing submitted), the first `nng_recv_aio`, then the
callbacks. -/
def throughput_server (msgsize : Nat) (count : Int) : List Msg → Except Nat tput_srv_data
  | [] => Except.ok { trips := count, msgsize := msgsize, done := false, recvs := 0 }
  | _sync :: ms =>
    tput_srv_run { trips := count, msgsize := msgsize, done := false, recvs := 1 } ms

/-- The divisor in `latency_client`'s
`latency = ((float) ((total * 1000000)) / (trips * 2))`: the product `trips * 2`
is formed in `int` before the conversion to `float`. -/
def latency_divisor (trips : Int) : Int := wrap32 (trips * 2)

/-! # Theorems -/

/-! ### Lemmas on the waitblock -/

theorem run_nil (wb : nni_waitblock) : WbEvent.run wb [] = wb := rfl

theorem run_cons (wb : nni_waitblock) (e : WbEvent) (evs : List WbEvent) :
    WbEvent.run wb (e :: evs) = WbEvent.run (WbEvent.apply wb e) evs := rfl

theorem run_append (wb : nni_waitblock) (xs ys : List WbEvent) :
    WbEvent.run wb (xs ++ ys) = WbEvent.run (WbEvent.run wb xs) ys := by
  simp [WbEvent.run, List.foldl_append]

/-- The flag after a trace that starts from an initialised waitblock is true
exactly when a `done` happened since the last `init`/`reset`. -/
theorem run_done_iff (wb : nni_waitblock) (tr : List WbEvent) :
    (WbEvent.run wb tr).wb_done = true ↔
      DoneSinceReset tr ∨ (wb.wb_done = true ∧ WbEvent.init ∉ tr ∧ WbEvent.reset ∉ tr) := by
  induction tr using List.reverseRecOn with
  | nil => simp [DoneSinceReset, run_nil]
  | append_singleton tr e ih =>
    rw [run_append, run_cons, run_nil]
    cases e with
    | init =>
      simp only [WbEvent.apply, nni_waitblock_init]
      constructor
      · intro h; cases h
      · rintro (⟨pre, post, h, h1, _⟩ | ⟨_, h, _⟩)
        · exfalso
          have hmem : WbEvent.init ∈ tr ++ [WbEvent.init] := by simp
          rw [h] at hmem
          have hlast := congrArg List.getLast? h
          simp at hlast
          cases post using List.reverseRecOn with
          | nil => simp at hlast
          | append_singleton post x _ =>
            rw [← List.cons_append, List.getLast?_append] at hlast
            simp at hlast
            subst hlast
            simp at h1
        · simp at h
    | reset =>
      simp only [WbEvent.apply, nni_waitblock_reset]
      constructor
      · intro h; cases h
      · rintro (⟨pre, post, h, _, h2⟩ | ⟨_, _, h⟩)
        · exfalso
          have hlast := congrArg List.getLast? h
          simp at hlast
          cases post using List.reverseRecOn with
          | nil => simp at hlast
          | append_singleton post x _ =>
            rw [← List.cons_append, List.getLast?_append] at hlast
            simp at hlast
            subst hlast
            simp at h2
        · simp at h
    | done =>
      simp only [WbEvent.apply, nni_waitblock_done, true_iff]
      exact Or.inl ⟨tr, [], rfl, by simp, by simp⟩
    | wake =>
      simp only [WbEvent.apply]
      rw [ih]
      constructor
      · rintro (⟨pre, post, h, h1, h2⟩ | ⟨h0, h1, h2⟩)
        · exact Or.inl ⟨pre, post ++ [WbEvent.wake], by simp [h], by simp [h1], by simp [h2]⟩
        · exact Or.inr ⟨h0, by simp [h1], by simp [h2]⟩
      · rintro (⟨pre, post, h, h1, h2⟩ | ⟨h0, h1, h2⟩)
        · cases post using List.reverseRecOn with
          | nil =>
            have hlast := congrArg List.getLast? h
            simp at hlast
          | append_singleton post x _ =>
            have h3 : tr ++ [WbEvent.wake] = (pre ++ WbEvent.done :: post) ++ [x] := by
              simp [h]
            have h4 := List.append_inj_left' h3 rfl
            refine Or.inl ⟨pre, post, h4, ?_, ?_⟩
            · intro hm; exact h1 (by simp [hm])
            · intro hm; exact h2 (by simp [hm])
        · refine Or.inr ⟨h0, ?_, ?_⟩
          · intro hm; exact h1 (by simp [hm])
          · intro hm; exact h2 (by simp [hm])

theorem wait_blocked_spec (wb : nni_waitblock) (evs : List WbEvent)
    (wb' : nni_waitblock) (rest : List WbEvent)
    (h : wait_blocked wb evs = some (wb', rest)) :
    ∃ used, evs = used ++ WbEvent.wake :: rest ∧ wb' = WbEvent.run wb used ∧
      wb'.wb_done = true := by
  induction evs generalizing wb with
  | nil => simp [wait_blocked] at h
  | cons e evs ih =>
    cases e with
    | wake =>
      simp only [wait_blocked] at h
      split at h
      · rename_i hd
        simp only [Option.some.injEq, Prod.mk.injEq] at h
        obtain ⟨h1, h2⟩ := h
        subst h1 h2
        exact ⟨[], rfl, rfl, hd⟩
      · obtain ⟨used, h1, h2, h3⟩ := ih wb h
        exact ⟨WbEvent.wake :: used, by simp [h1], by simpa [run_cons, WbEvent.apply] using h2, h3⟩
    | init =>
      simp only [wait_blocked] at h
      obtain ⟨used, h1, h2, h3⟩ := ih _ h
      exact ⟨WbEvent.init :: used, by simp [h1], by simpa [run_cons] using h2, h3⟩
    | reset =>
      simp only [wait_blocked] at h
      obtain ⟨used, h1, h2, h3⟩ := ih _ h
      exact ⟨WbEvent.reset :: used, by simp [h1], by simpa [run_cons] using h2, h3⟩
    | done =>
      simp only [wait_blocked] at h
      obtain ⟨used, h1, h2, h3⟩ := ih _ h
      exact ⟨WbEvent.done :: used, by simp [h1], by simpa [run_cons] using h2, h3⟩

/-- What `nni_waitblock_wait` returns: the events it slept through applied to
the waitblock it was called on, with the flag true, and nothing else. -/
theorem wait_spec (wb : nni_waitblock) (evs : List WbEvent)
    (wb' : nni_waitblock) (rest : List WbEvent)
    (h : nni_waitblock_wait wb evs = some (wb', rest)) :
    ∃ used, evs = used ++ rest ∧ wb' = WbEvent.run wb used ∧ wb'.wb_done = true ∧
      (wb.wb_done = false → ∃ u, used = u ++ [WbEvent.wake]) := by
  unfold nni_waitblock_wait at h
  split at h
  · rename_i hd
    simp only [Option.some.injEq, Prod.mk.injEq] at h
    obtain ⟨h1, h2⟩ := h
    subst h1 h2
    exact ⟨[], rfl, rfl, hd, by simp [hd]⟩
  · obtain ⟨used, h1, h2, h3⟩ := wait_blocked_spec wb evs wb' rest h
    refine ⟨used ++ [WbEvent.wake], by simp [h1], ?_, h3, fun _ => ⟨used, rfl⟩⟩
    rw [run_append, run_cons, run_nil]
    simpa [WbEvent.apply] using h2

theorem wait_blocked_wakes_only (wb : nni_waitblock) (evs : List WbEvent)
    (hd : wb.wb_done = false) (hw : ∀ e ∈ evs, e = WbEvent.wake) :
    wait_blocked wb evs = none := by
  induction evs with
  | nil => rfl
  | cons e evs ih =>
    have he : e = WbEvent.wake := hw e (by simp)
    subst he
    simp only [wait_blocked, hd]
    exact ih (fun e he => hw e (by simp [he]))

theorem wait_blocked_returns (wb : nni_waitblock) (pre rest : List WbEvent)
    (hw : WbEvent.wake ∉ pre) (hd : (WbEvent.run wb pre).wb_done = true) :
    wait_blocked wb (pre ++ WbEvent.wake :: rest) = some (WbEvent.run wb pre, rest) := by
  induction pre generalizing wb with
  | nil =>
    simp only [run_nil] at hd
    simp [wait_blocked, hd, run_nil]
  | cons e pre ih =>
    have hne : e ≠ WbEvent.wake := fun h => hw (by simp [h])
    have hw2 : WbEvent.wake ∉ pre := fun h => hw (by simp [h])
    rw [run_cons] at hd
    cases e with
    | wake => exact absurd rfl hne
    | init => simpa [wait_blocked, run_cons] using ih _ hw2 hd
    | reset => simpa [wait_blocked, run_cons] using ih _ hw2 hd
    | done => simpa [wait_blocked, run_cons] using ih _ hw2 hd

/-! ### C1 -/

/-- C1: for every interleaving of `init`, `reset`, `done` and wake-ups, a call
to `nni_waitblock_wait` on a waitblock that was initialised and then went
through the events `hist` returns only with the done flag true, and then a
`done` has happened with no `init` or `reset` after it; the waitblock it
returns with is what the other threads made of it.  A waiter that finds the
flag false and is only woken (no `done`) never returns, and a wake-up that
finds the flag true does make it return. -/
theorem nni_waitblock_wait_returns_only_when_done :
    (∀ (wb0 : nni_waitblock) (hist evs : List WbEvent) (wb' : nni_waitblock)
        (rest : List WbEvent),
        nni_waitblock_wait (WbEvent.run (nni_waitblock_init wb0) hist) evs = some (wb', rest) →
        wb'.wb_done = true ∧
          ∃ used, evs = used ++ rest ∧
            wb' = WbEvent.run (nni_waitblock_init wb0) (hist ++ used) ∧
            DoneSinceReset (hist ++ used)) ∧
    (∀ (wb : nni_waitblock) (evs : List WbEvent), wb.wb_done = false →
        (∀ e ∈ evs, e = WbEvent.wake) → nni_waitblock_wait wb evs = none) ∧
    (∀ (wb : nni_waitblock) (pre rest : List WbEvent), wb.wb_done = false →
        WbEvent.wake ∉ pre → (WbEvent.run wb pre).wb_done = true →
        nni_waitblock_wait wb (pre ++ WbEvent.wake :: rest)
          = some (WbEvent.run wb pre, rest)) := by
  refine ⟨?_, ?_, ?_⟩
  · intro wb0 hist evs wb' rest h
    obtain ⟨used, h1, h2, h3, _⟩ := wait_spec _ _ _ _ h
    refine ⟨h3, used, h1, ?_, ?_⟩
    · rw [run_append]; exact h2
    · have h4 : (WbEvent.run (nni_waitblock_init wb0) (hist ++ used)).wb_done = true := by
        rw [run_append, ← h2]; exact h3
      rcases (run_done_iff _ _).1 h4 with h5 | ⟨h5, _⟩
      · exact h5
      · simp [nni_waitblock_init] at h5
  · intro wb evs hd hw
    simp only [nni_waitblock_wait, hd]
    exact wait_blocked_wakes_only wb evs hd hw
  · intro wb pre rest hd hw hr
    simp only [nni_waitblock_wait, hd]
    exact wait_blocked_returns wb pre rest hw hr

/-- Witness for C1: initialised, then a spurious wake-up, a `done` and the
wake-up that follows it. -/
theorem nni_waitblock_wait_returns_only_when_done_witness :
    nni_waitblock_wait (WbEvent.run (nni_waitblock_init ⟨true⟩) [WbEvent.done, WbEvent.reset])
        [WbEvent.wake, WbEvent.done, WbEvent.wake, WbEvent.reset]
      = some (⟨true⟩, [WbEvent.reset]) ∧
    ((⟨true⟩ : nni_waitblock).wb_done = true ∧
      ∃ used, [WbEvent.wake, WbEvent.done, WbEvent.wake, WbEvent.reset]
          = used ++ [WbEvent.reset] ∧
        (⟨true⟩ : nni_waitblock) = WbEvent.run (nni_waitblock_init ⟨true⟩)
          ([WbEvent.done, WbEvent.reset] ++ used) ∧
        DoneSinceReset ([WbEvent.done, WbEvent.reset] ++ used)) ∧
    nni_waitblock_wait ⟨false⟩ [WbEvent.wake, WbEvent.wake] = none ∧
    nni_waitblock_wait ⟨false⟩ ([WbEvent.done] ++ WbEvent.wake :: [])
      = some (WbEvent.run ⟨false⟩ [WbEvent.done], []) :=
  ⟨by decide,
   nni_waitblock_wait_returns_only_when_done.1 ⟨true⟩ [WbEvent.done, WbEvent.reset]
     [WbEvent.wake, WbEvent.done, WbEvent.wake, WbEvent.reset] ⟨true⟩ [WbEvent.reset]
     (by decide),
   nni_waitblock_wait_returns_only_when_done.2.1 ⟨false⟩ [WbEvent.wake, WbEvent.wake] rfl
     (by decide),
   nni_waitblock_wait_returns_only_when_done.2.2 ⟨false⟩ [WbEvent.done] [] rfl
     (by decide) (by decide)⟩

/-! ### C2 -/

theorem run_stays_done (wb : nni_waitblock) (evs : List WbEvent)
    (hd : wb.wb_done = true) (hi : WbEvent.init ∉ evs) (hr : WbEvent.reset ∉ evs) :
    (WbEvent.run wb evs).wb_done = true :=
  (run_done_iff wb evs).2 (Or.inr ⟨hd, hi, hr⟩)

theorem risingEdges_of_done (wb : nni_waitblock) (evs : List WbEvent)
    (hd : wb.wb_done = true) (hi : WbEvent.init ∉ evs) (hr : WbEvent.reset ∉ evs) :
    risingEdges wb evs = 0 := by
  induction evs generalizing wb with
  | nil => rfl
  | cons e evs ih =>
    have hi2 : WbEvent.init ∉ evs := fun h => hi (by simp [h])
    have hr2 : WbEvent.reset ∉ evs := fun h => hr (by simp [h])
    have he : (WbEvent.apply wb e).wb_done = true := by
      cases e with
      | init => simp at hi
      | reset => simp at hr
      | done => rfl
      | wake => exact hd
    simp [risingEdges, hd, ih _ he hi2 hr2]

theorem risingEdges_of_clear (wb : nni_waitblock) (evs : List WbEvent)
    (hd : wb.wb_done = false) (hi : WbEvent.init ∉ evs) (hr : WbEvent.reset ∉ evs) :
    risingEdges wb evs = if WbEvent.done ∈ evs then 1 else 0 := by
  induction evs generalizing wb with
  | nil => rfl
  | cons e evs ih =>
    have hi2 : WbEvent.init ∉ evs := fun h => hi (by simp [h])
    have hr2 : WbEvent.reset ∉ evs := fun h => hr (by simp [h])
    cases e with
    | init => simp at hi
    | reset => simp at hr
    | done =>
      have h0 := risingEdges_of_done (nni_waitblock_done wb) evs rfl hi2 hr2
      simp only [nni_waitblock_done] at h0
      simp [risingEdges, WbEvent.apply, hd, h0, nni_waitblock_done]
    | wake =>
      have h0 := ih wb hd hi2 hr2
      simp [risingEdges, WbEvent.apply, hd, h0]

/-- C2: `nni_waitblock_done` sets the flag from every prior state; once it is
set, every further sequence of `done` calls and wake-ups leaves it set and a
`nni_waitblock_wait` issued anywhere in that sequence returns at once with the
waitblock untouched; `nni_waitblock_wait` never writes the flag; from an
initialised or reset waitblock a trace without `init`/`reset` has exactly one
false-to-true transition when it contains a `done` (none otherwise); and an
event that turns the flag from true to false is `init` or `reset`. -/
theorem nni_waitblock_done_sets_flag_once :
    (∀ wb : nni_waitblock, (nni_waitblock_done wb).wb_done = true) ∧
    (∀ (wb : nni_waitblock) (a b : List WbEvent),
        WbEvent.init ∉ a → WbEvent.reset ∉ a →
        (WbEvent.run (nni_waitblock_done wb) a).wb_done = true ∧
        nni_waitblock_wait (WbEvent.run (nni_waitblock_done wb) a) b
          = some (WbEvent.run (nni_waitblock_done wb) a, b)) ∧
    (∀ (wb : nni_waitblock) (evs : List WbEvent) (wb' : nni_waitblock)
        (rest : List WbEvent), nni_waitblock_wait wb evs = some (wb', rest) →
        ∃ used, evs = used ++ rest ∧ wb' = WbEvent.run wb used) ∧
    (∀ (wb : nni_waitblock) (evs : List WbEvent),
        WbEvent.init ∉ evs → WbEvent.reset ∉ evs →
        risingEdges (nni_waitblock_init wb) evs = (if WbEvent.done ∈ evs then 1 else 0) ∧
        risingEdges (nni_waitblock_reset wb) evs = (if WbEvent.done ∈ evs then 1 else 0)) ∧
    (∀ (wb : nni_waitblock) (e : WbEvent), wb.wb_done = true →
        (WbEvent.apply wb e).wb_done = false → e = WbEvent.init ∨ e = WbEvent.reset) := by
  refine ⟨fun _ => rfl, ?_, ?_, ?_, ?_⟩
  · intro wb a b hi hr
    have h := run_stays_done (nni_waitblock_done wb) a rfl hi hr
    exact ⟨h, by simp [nni_waitblock_wait, h]⟩
  · intro wb evs wb' rest h
    obtain ⟨used, h1, h2, _⟩ := wait_spec wb evs wb' rest h
    exact ⟨used, h1, h2⟩
  · intro wb evs hi hr
    exact ⟨risingEdges_of_clear _ evs rfl hi hr, risingEdges_of_clear _ evs rfl hi hr⟩
  · intro wb e hd he
    cases e with
    | init => exact Or.inl rfl
    | reset => exact Or.inr rfl
    | done => simp [WbEvent.apply, nni_waitblock_done] at he
    | wake => simp [WbEvent.apply, hd] at he

/-- Witness for C2: two `done` calls around a wake-up, then a wait. -/
theorem nni_waitblock_done_sets_flag_once_witness :
    ((WbEvent.run (nni_waitblock_done ⟨false⟩) [WbEvent.done, WbEvent.wake]).wb_done = true ∧
      nni_waitblock_wait (WbEvent.run (nni_waitblock_done ⟨false⟩) [WbEvent.done, WbEvent.wake])
          [WbEvent.wake]
        = some (WbEvent.run (nni_waitblock_done ⟨false⟩) [WbEvent.done, WbEvent.wake],
            [WbEvent.wake])) ∧
    (risingEdges (nni_waitblock_init ⟨true⟩) [WbEvent.wake, WbEvent.done, WbEvent.done]
        = (if WbEvent.done ∈ [WbEvent.wake, WbEvent.done, WbEvent.done] then 1 else 0) ∧
      risingEdges (nni_waitblock_reset ⟨true⟩) [WbEvent.wake, WbEvent.done, WbEvent.done]
        = (if WbEvent.done ∈ [WbEvent.wake, WbEvent.done, WbEvent.done] then 1 else 0)) ∧
    (WbEvent.reset = WbEvent.init ∨ WbEvent.reset = WbEvent.reset) ∧
    (∃ used, [WbEvent.done, WbEvent.wake, WbEvent.init] = used ++ [WbEvent.init] ∧
      (⟨true⟩ : nni_waitblock) = WbEvent.run ⟨false⟩ used) :=
  ⟨nni_waitblock_done_sets_flag_once.2.1 ⟨false⟩ [WbEvent.done, WbEvent.wake] [WbEvent.wake]
     (by decide) (by decide),
   nni_waitblock_done_sets_flag_once.2.2.2.1 ⟨true⟩ [WbEvent.wake, WbEvent.done, WbEvent.done]
     (by decide) (by decide),
   nni_waitblock_done_sets_flag_once.2.2.2.2 ⟨true⟩ WbEvent.reset rfl rfl,
   nni_waitblock_done_sets_flag_once.2.2.1 ⟨false⟩ [WbEvent.done, WbEvent.wake, WbEvent.init]
     ⟨true⟩ [WbEvent.init] (by decide)⟩

/-! ### C3 -/

theorem done_mem_of_doneSinceReset (tr : List WbEvent) (h : DoneSinceReset tr) :
    WbEvent.done ∈ tr := by
  obtain ⟨pre, post, h1, _, _⟩ := h
  simp [h1]

/-- C3: `nni_waitblock_init` yields a cleared flag; `nni_waitblock_reset`
yields a cleared flag from every prior state, the very state `init` produces;
a wait issued after `reset` returns only after a `done` among the events it
sleeps through, and it does return on a `done` followed by its wake-up, so the
waitblock is reusable. -/
theorem nni_waitblock_reset_restores_initial :
    (∀ wb : nni_waitblock, (nni_waitblock_init wb).wb_done = false) ∧
    (∀ wb : nni_waitblock, (nni_waitblock_reset wb).wb_done = false) ∧
    (∀ wb wb0 : nni_waitblock, nni_waitblock_reset wb = nni_waitblock_init wb0) ∧
    (∀ (wb : nni_waitblock) (evs : List WbEvent) (wb' : nni_waitblock)
        (rest : List WbEvent),
        nni_waitblock_wait (nni_waitblock_reset wb) evs = some (wb', rest) →
        ∃ used, evs = used ++ rest ∧ WbEvent.done ∈ used ∧ wb'.wb_done = true) ∧
    (∀ (wb : nni_waitblock) (rest : List WbEvent),
        nni_waitblock_wait (nni_waitblock_reset (nni_waitblock_done wb))
          (WbEvent.done :: WbEvent.wake :: rest) = some (⟨true⟩, rest)) := by
  refine ⟨fun _ => rfl, fun _ => rfl, fun _ _ => rfl, ?_, fun _ _ => rfl⟩
  intro wb evs wb' rest h
  obtain ⟨used, h1, h2, h3, _⟩ := wait_spec _ _ _ _ h
  refine ⟨used, h1, ?_, h3⟩
  rw [h2] at h3
  rcases (run_done_iff _ _).1 h3 with h5 | ⟨h5, _⟩
  · exact done_mem_of_doneSinceReset _ h5
  · simp [nni_waitblock_reset] at h5

/-- Witness for C3: a wait after `done` and `reset`, woken once spuriously. -/
theorem nni_waitblock_reset_restores_initial_witness :
    ∃ used, [WbEvent.wake, WbEvent.done, WbEvent.wake, WbEvent.wake]
        = used ++ [WbEvent.wake] ∧
      WbEvent.done ∈ used ∧ (⟨true⟩ : nni_waitblock).wb_done = true :=
  nni_waitblock_reset_restores_initial.2.2.2.1 (nni_waitblock_done ⟨false⟩)
    [WbEvent.wake, WbEvent.done, WbEvent.wake, WbEvent.wake] ⟨true⟩ [WbEvent.wake]
    (by decide)

/-! ### C4 -/

theorem exec_nil (s : WbSys) : s.exec [] = s := rfl

theorem exec_cons (s : WbSys) (a : Act) (acts : List Act) :
    s.exec (a :: acts) = (s.act a).exec acts := rfl

theorem exec_append (s : WbSys) (xs ys : List Act) :
    s.exec (xs ++ ys) = (s.exec xs).exec ys := by
  simp [WbSys.exec, List.foldl_append]

theorem inv_fresh : WbSys.fresh.Inv := by
  constructor <;> simp [WbSys.fresh, Pc.holds, nni_waitblock_init]

/-- The threads other than the owner of the mutex are outside the critical
section. -/
theorem others_hold_not (s : WbSys) (t : Nat) (h : s.Inv) (hown : s.wb_mtx = some t) :
    ∀ u, u ≠ t → (s.pc u).holds = false := by
  intro u hu
  cases hh : (s.pc u).holds
  · rfl
  · have := (h.mutex u).2 hh
    rw [hown] at this
    simp only [Option.some.injEq] at this
    exact absurd this.symm hu

/-- While the mutex is free no thread is inside the critical section. -/
theorem none_holds (s : WbSys) (h : s.Inv) (hfree : s.wb_mtx = none) :
    ∀ u, (s.pc u).holds = false := by
  intro u
  cases hh : (s.pc u).holds
  · rfl
  · have := (h.mutex u).2 hh
    rw [hfree] at this
    cases this

/-- Moving one thread, flag and mutex untouched, between two program points
that are both inside or both outside the critical section, neither of them the
wake-up of `nni_waitblock_done`, the sleep or the call of `nni_cv_wait`. -/
theorem inv_move (s : WbSys) (t : Nat) (next : Pc) (h : s.Inv)
    (hh : next.holds = (s.pc t).holds)
    (h1 : s.pc t ≠ Pc.done_wake)
    (h2 : next = Pc.done_wake ∨ next = Pc.done_unlock ∨ next = Pc.wait_unlock →
      s.wb_done = true)
    (h3 : next ≠ Pc.wait_sleep)
    (h4 : next = Pc.wait_cvwait → s.wb_done = false) :
    WbSys.Inv { s with pc := Function.update s.pc t next } := by
  obtain ⟨hm, hf, ha, hp⟩ := h
  refine ⟨fun u => ?_, fun u => ?_, fun u => ?_, fun u => ?_⟩
  · by_cases hu : u = t
    · subst hu
      simp only [Function.update_same, hh]
      exact hm u
    · simp only [Function.update_noteq hu]
      exact hm u
  · by_cases hu : u = t
    · subst hu
      simp only [Function.update_same]
      exact h2
    · simp only [Function.update_noteq hu]
      exact hf u
  · by_cases hu : u = t
    · subst hu
      simp only [Function.update_same]
      intro h5
      exact absurd h5 h3
    · simp only [Function.update_noteq hu]
      intro h5 h6
      obtain ⟨d, hd⟩ := ha u h5 h6
      have hdt : d ≠ t := by
        intro h7
        rw [h7] at hd
        exact h1 hd
      exact ⟨d, by simp [Function.update_noteq hdt, hd]⟩
  · by_cases hu : u = t
    · subst hu
      simp only [Function.update_same]
      exact h4
    · simp only [Function.update_noteq hu]
      exact hp u

/-- Moving thread `t` from a program point outside the critical section to one
inside it, taking the free mutex. -/
theorem inv_lock (s : WbSys) (t : Nat) (next : Pc) (h : s.Inv)
    (hnext : next = Pc.wait_test ∨ next = Pc.done_set) :
    (nni_mtx_lock s t next).Inv := by
  unfold nni_mtx_lock
  split
  · rename_i hfree
    have hnh := none_holds s h hfree
    obtain ⟨hm, hf, ha, hp⟩ := h
    refine ⟨fun u => ?_, fun u => ?_, fun u => ?_, fun u => ?_⟩
    · by_cases hu : u = t
      · subst hu
        rcases hnext with h1 | h1 <;> simp [h1, Pc.holds]
      · simp only [Function.update_noteq hu, hnh u]
        simp [Ne.symm hu]
    · by_cases hu : u = t
      · subst hu
        rcases hnext with h1 | h1 <;> simp [h1]
      · simp only [Function.update_noteq hu]
        exact hf u
    · by_cases hu : u = t
      · subst hu
        rcases hnext with h1 | h1 <;> simp [h1]
      · simp only [Function.update_noteq hu]
        intro h1 h2
        obtain ⟨d, hd⟩ := ha u h1 h2
        have := hnh d
        rw [hd] at this
        simp [Pc.holds] at this
    · by_cases hu : u = t
      · subst hu
        rcases hnext with h1 | h1 <;> simp [h1]
      · simp only [Function.update_noteq hu]
        exact hp u
  · exact h

/-- The owner of the mutex releases it and moves to a program point outside
the critical section; it was not about to issue a wake-up, and it falls asleep
only with the flag false. -/
theorem inv_unlock (s : WbSys) (t : Nat) (next : Pc) (h : s.Inv)
    (hold : (s.pc t).holds = true) (hpc : s.pc t ≠ Pc.done_wake)
    (hnext : next = Pc.returned ∨ next = Pc.idle ∨
      (next = Pc.wait_sleep ∧ s.wb_done = false)) :
    WbSys.Inv { s with wb_mtx := none, pc := Function.update s.pc t next } := by
  have hown : s.wb_mtx = some t := (h.mutex t).2 hold
  have hnh := others_hold_not s t h hown
  obtain ⟨hm, hf, ha, hp⟩ := h
  refine ⟨fun u => ?_, fun u => ?_, fun u => ?_, fun u => ?_⟩
  · by_cases hu : u = t
    · subst hu
      rcases hnext with h1 | h1 | ⟨h1, _⟩ <;> simp [h1, Pc.holds]
    · simp [Function.update_noteq hu, hnh u hu]
  · by_cases hu : u = t
    · subst hu
      rcases hnext with h1 | h1 | ⟨h1, _⟩ <;> simp [h1]
    · simp only [Function.update_noteq hu]
      exact hf u
  · by_cases hu : u = t
    · subst hu
      rcases hnext with h1 | h1 | ⟨h1, h2⟩
      · simp [h1]
      · simp [h1]
      · intro _ h3
        rw [h2] at h3
        cases h3
    · simp only [Function.update_noteq hu]
      intro h1 h2
      obtain ⟨d, hd⟩ := ha u h1 h2
      have hdt : d ≠ t := by
        intro h3
        rw [h3] at hd
        exact hpc hd
      exact ⟨d, by simp [Function.update_noteq hdt, hd]⟩
  · by_cases hu : u = t
    · subst hu
      rcases hnext with h1 | h1 | ⟨h1, _⟩ <;> simp [h1]
    · simp only [Function.update_noteq hu]
      exact hp u

theorem inv_step (s : WbSys) (t : Nat) (h : s.Inv) : (s.step t).Inv := by
  unfold WbSys.step
  split
  · exact h
  · exact h
  · exact inv_lock s t _ h (Or.inl rfl)
  · -- the loop test, under the mutex
    rename_i hpc
    split
    · rename_i hdone
      exact inv_move s t _ h (by simp [hpc, Pc.holds]) (by simp [hpc])
        (fun _ => hdone) (by simp) (by simp)
    · rename_i hdone
      have hfalse : s.wb_done = false := by simpa using hdone
      exact inv_move s t _ h (by simp [hpc, Pc.holds]) (by simp [hpc])
        (by simp) (by simp) (fun _ => hfalse)
  · -- the call of nni_cv_wait: the flag is still false, thanks to the mutex
    rename_i hpc
    exact inv_unlock s t _ h (by simp [hpc, Pc.holds]) (by simp [hpc])
      (Or.inr (Or.inr ⟨rfl, h.parked t hpc⟩))
  · exact h
  · exact inv_lock s t _ h (Or.inl rfl)
  · rename_i hpc
    exact inv_unlock s t _ h (by simp [hpc, Pc.holds]) (by simp [hpc]) (Or.inl rfl)
  · exact inv_lock s t _ h (Or.inr rfl)
  · -- the assignment of nni_waitblock_done: nobody else is in the critical section
    rename_i hpc
    have hown : s.wb_mtx = some t := (h.mutex t).2 (by simp [hpc, Pc.holds])
    have hnh := others_hold_not s t h hown
    obtain ⟨hm, hf, ha, hp⟩ := h
    refine ⟨fun u => ?_, fun u => ?_, fun u => ?_, fun u => ?_⟩
    · by_cases hu : u = t
      · subst hu
        simp [Pc.holds, hown]
      · simp only [Function.update_noteq hu]
        exact hm u
    · intro _
      rfl
    · intro _ _
      exact ⟨t, by simp⟩
    · by_cases hu : u = t
      · subst hu
        simp
      · simp only [Function.update_noteq hu]
        intro h1
        have := hnh u hu
        rw [h1] at this
        simp [Pc.holds] at this
  · -- the wake-up of nni_waitblock_done
    rename_i hpc
    have hown : s.wb_mtx = some t := (h.mutex t).2 (by simp [hpc, Pc.holds])
    have hnh := others_hold_not s t h hown
    obtain ⟨hm, hf, ha, hp⟩ := h
    simp only [nni_cv_wake]
    refine ⟨fun u => ?_, fun u => ?_, fun u => ?_, fun u => ?_⟩
    · by_cases hu : u = t
      · subst hu
        simp [Pc.holds, hown]
      · simp only [Function.update_noteq hu]
        have h2 := hm u
        split
        · rename_i h3
          rw [h3] at h2
          simpa [Pc.holds] using h2
        · exact h2
    · intro _
      exact hf t (Or.inl hpc)
    · by_cases hu : u = t
      · subst hu
        simp
      · simp only [Function.update_noteq hu]
        intro h1
        split at h1
        · cases h1
        · rename_i h3
          exact absurd h1 h3
    · by_cases hu : u = t
      · subst hu
        simp
      · simp only [Function.update_noteq hu]
        intro h1
        split at h1
        · cases h1
        · exact hp u h1
  · rename_i hpc
    exact inv_unlock s t _ h (by simp [hpc, Pc.holds]) (by simp [hpc]) (Or.inr (Or.inl rfl))

theorem inv_act (s : WbSys) (a : Act) (h : s.Inv) : (s.act a).Inv := by
  cases a with
  | step t => exact inv_step s t h
  | call_wait t =>
    simp only [WbSys.act]
    split
    · rename_i hpc
      exact inv_move s t _ h (by rcases hpc with h1 | h1 <;> simp [h1, Pc.holds])
        (by rcases hpc with h1 | h1 <;> simp [h1]) (by simp) (by simp) (by simp)
    · exact h
  | call_done t =>
    simp only [WbSys.act]
    split
    · rename_i hpc
      exact inv_move s t _ h (by rcases hpc with h1 | h1 <;> simp [h1, Pc.holds])
        (by rcases hpc with h1 | h1 <;> simp [h1]) (by simp) (by simp) (by simp)
    · exact h
  | spurious t =>
    simp only [WbSys.act]
    split
    · rename_i hpc
      exact inv_move s t _ h (by simp [hpc, Pc.holds]) (by simp [hpc]) (by simp) (by simp)
        (by simp)
    · exact h

theorem inv_exec (s : WbSys) (acts : List Act) (h : s.Inv) : (s.exec acts).Inv := by
  induction acts generalizing s with
  | nil => exact h
  | cons a acts ih => exact ih _ (inv_act s a h)

theorem update_ne_sleep (pc : Nat → Pc) (t : Nat) (p : Pc) (hp : p ≠ Pc.wait_sleep)
    (hs : ∀ u, pc u ≠ Pc.wait_sleep) : ∀ u, Function.update pc t p u ≠ Pc.wait_sleep := by
  intro u
  by_cases hu : u = t
  · subst hu
    simpa using hp
  · simpa [Function.update_noteq hu] using hs u

/-- Once the flag is true and nobody is asleep, no action changes that: a
thread past the test towards `nni_cv_wait` would, but the flag is false for
it. -/
theorem awake_act (s : WbSys) (a : Act) (hi : s.Inv) (hd : s.wb_done = true)
    (hs : ∀ t, s.pc t ≠ Pc.wait_sleep) :
    (s.act a).wb_done = true ∧ ∀ t, (s.act a).pc t ≠ Pc.wait_sleep := by
  cases a with
  | call_wait t =>
    simp only [WbSys.act]
    split
    · exact ⟨hd, update_ne_sleep _ _ _ (by simp) hs⟩
    · exact ⟨hd, hs⟩
  | call_done t =>
    simp only [WbSys.act]
    split
    · exact ⟨hd, update_ne_sleep _ _ _ (by simp) hs⟩
    · exact ⟨hd, hs⟩
  | spurious t =>
    simp only [WbSys.act]
    split
    · exact ⟨hd, update_ne_sleep _ _ _ (by simp) hs⟩
    · exact ⟨hd, hs⟩
  | step t =>
    simp only [WbSys.act, WbSys.step]
    split
    · exact ⟨hd, hs⟩
    · exact ⟨hd, hs⟩
    · unfold nni_mtx_lock
      split
      · exact ⟨hd, update_ne_sleep _ _ _ (by simp) hs⟩
      · exact ⟨hd, hs⟩
    · rw [if_pos hd]
      exact ⟨hd, update_ne_sleep _ _ _ (by simp) hs⟩
    · rename_i hpc
      have := hi.parked t hpc
      rw [hd] at this
      cases this
    · exact ⟨hd, hs⟩
    · unfold nni_mtx_lock
      split
      · exact ⟨hd, update_ne_sleep _ _ _ (by simp) hs⟩
      · exact ⟨hd, hs⟩
    · exact ⟨hd, update_ne_sleep _ _ _ (by simp) hs⟩
    · unfold nni_mtx_lock
      split
      · exact ⟨hd, update_ne_sleep _ _ _ (by simp) hs⟩
      · exact ⟨hd, hs⟩
    · exact ⟨rfl, update_ne_sleep _ _ _ (by simp) hs⟩
    · refine ⟨hd, update_ne_sleep _ _ _ (by simp) ?_⟩
      intro u
      simp only [nni_cv_wake]
      split
      · simp
      · exact hs u
    · exact ⟨hd, update_ne_sleep _ _ _ (by simp) hs⟩

theorem awake_exec (s : WbSys) (acts : List Act) (hi : s.Inv) (hd : s.wb_done = true)
    (hs : ∀ t, s.pc t ≠ Pc.wait_sleep) :
    (s.exec acts).wb_done = true ∧ ∀ t, (s.exec acts).pc t ≠ Pc.wait_sleep := by
  induction acts generalizing s with
  | nil => exact ⟨hd, hs⟩
  | cons a acts ih =>
    obtain ⟨h1, h2⟩ := awake_act s a hi hd hs
    exact ih _ (inv_act s a hi) h1 h2

/-- A thread inside `nni_waitblock_wait` that is not asleep and finds the mutex
free or its own returns within three statements of its own, leaving the mutex
free, when the flag is true. -/
theorem wait_returns_in_three (s : WbSys) (t : Nat) (hi : s.Inv) (hd : s.wb_done = true)
    (hs : s.pc t ≠ Pc.wait_sleep) (hw : (s.pc t).inWait = true)
    (hm : s.wb_mtx = none ∨ s.wb_mtx = some t) :
    (s.exec [Act.step t, Act.step t, Act.step t]).pc t = Pc.returned ∧
      (s.exec [Act.step t, Act.step t, Act.step t]).wb_mtx = none := by
  have hmx := hi.mutex t
  cases hpc : s.pc t <;> rw [hpc] at hw hmx <;> simp [Pc.inWait, Pc.holds] at hw hmx
  · -- wait_lock
    have hfree : s.wb_mtx = none := by
      rcases hm with h | h
      · exact h
      · exact absurd h hmx
    simp [WbSys.exec, WbSys.act, WbSys.step, hpc, nni_mtx_lock, hfree, hd, nni_mtx_unlock]
  · -- wait_test
    simp [WbSys.exec, WbSys.act, WbSys.step, hpc, hd, nni_mtx_unlock]
  · -- wait_cvwait: not with the flag true
    have := hi.parked t hpc
    rw [hd] at this
    cases this
  · exact absurd hpc hs
  · -- wait_relock
    have hfree : s.wb_mtx = none := by
      rcases hm with h | h
      · exact h
      · exact absurd h hmx
    simp [WbSys.exec, WbSys.act, WbSys.step, hpc, nni_mtx_lock, hfree, hd, nni_mtx_unlock]
  · -- wait_unlock
    simp [WbSys.exec, WbSys.act, WbSys.step, hpc, nni_mtx_unlock]

/-- The owner of the mutex releases it within three statements of its own. -/
theorem holder_releases_in_three (s : WbSys) (h : Nat) (hi : s.Inv)
    (hm : s.wb_mtx = some h) :
    (s.exec [Act.step h, Act.step h, Act.step h]).wb_mtx = none := by
  have hmx := (hi.mutex h).1 hm
  cases hpc : s.pc h <;> rw [hpc] at hmx <;> simp [Pc.holds] at hmx
  · cases hd : s.wb_done <;>
      simp [WbSys.exec, WbSys.act, WbSys.step, hpc, hd, nni_mtx_unlock, nni_cv_wait]
  · simp [WbSys.exec, WbSys.act, WbSys.step, hpc, nni_cv_wait]
  · simp [WbSys.exec, WbSys.act, WbSys.step, hpc, nni_mtx_unlock]
  · simp [WbSys.exec, WbSys.act, WbSys.step, hpc, nni_mtx_unlock, nni_cv_wake]
  · simp [WbSys.exec, WbSys.act, WbSys.step, hpc, nni_mtx_unlock, nni_cv_wake]
  · simp [WbSys.exec, WbSys.act, WbSys.step, hpc, nni_mtx_unlock]

theorem sleep_one (s : WbSys) (n : Nat) (hpc : s.pc n = Pc.idle) (hm : s.wb_mtx = none)
    (hd : s.wb_done = false) :
    (s.exec [Act.call_wait n, Act.step n, Act.step n, Act.step n]).wb_done = false ∧
    (s.exec [Act.call_wait n, Act.step n, Act.step n, Act.step n]).wb_mtx = none ∧
    (s.exec [Act.call_wait n, Act.step n, Act.step n, Act.step n]).pc
      = Function.update s.pc n Pc.wait_sleep := by
  simp [WbSys.exec, WbSys.act, WbSys.step, hpc, nni_mtx_lock, hm, hd, nni_cv_wait]

theorem done_one (s : WbSys) (d : Nat) (hpc : s.pc d = Pc.idle) (hm : s.wb_mtx = none) :
    (s.exec (doneCall d)).wb_done = true ∧
    (s.exec (doneCall d)).wb_mtx = none ∧
    (s.exec (doneCall d)).pc
      = fun u => if s.pc u = Pc.wait_sleep then Pc.wait_relock else s.pc u := by
  refine ⟨?_, ?_, ?_⟩
  · simp [doneCall, WbSys.exec, WbSys.act, WbSys.step, hpc, nni_mtx_lock, hm, nni_cv_wake,
      nni_mtx_unlock, nni_waitblock_done]
  · simp [doneCall, WbSys.exec, WbSys.act, WbSys.step, hpc, nni_mtx_lock, hm, nni_cv_wake,
      nni_mtx_unlock, nni_waitblock_done]
  · funext u
    by_cases hu : u = d
    · subst hu
      simp [doneCall, WbSys.exec, WbSys.act, WbSys.step, hpc, nni_mtx_lock, hm, nni_cv_wake,
        nni_mtx_unlock, nni_waitblock_done]
    · simp [doneCall, WbSys.exec, WbSys.act, WbSys.step, hpc, nni_mtx_lock, hm, nni_cv_wake,
        nni_mtx_unlock, nni_waitblock_done, Function.update_noteq hu]

theorem resume_one (s : WbSys) (t : Nat) (hpc : s.pc t = Pc.wait_relock)
    (hm : s.wb_mtx = none) (hd : s.wb_done = true) :
    (s.exec [Act.step t, Act.step t, Act.step t]).wb_done = true ∧
    (s.exec [Act.step t, Act.step t, Act.step t]).wb_mtx = none ∧
    (s.exec [Act.step t, Act.step t, Act.step t]).pc
      = Function.update s.pc t Pc.returned := by
  simp [WbSys.exec, WbSys.act, WbSys.step, hpc, nni_mtx_lock, hm, hd, nni_mtx_unlock]

theorem exec_sleepAll (n : Nat) :
    (WbSys.fresh.exec (sleepAll n)).wb_done = false ∧
    (WbSys.fresh.exec (sleepAll n)).wb_mtx = none ∧
    ∀ t, (WbSys.fresh.exec (sleepAll n)).pc t = if t < n then Pc.wait_sleep else Pc.idle := by
  induction n with
  | zero => simp [sleepAll, exec_nil, WbSys.fresh, nni_waitblock_init]
  | succ n ih =>
    obtain ⟨h1, h2, h3⟩ := ih
    have hpc : (WbSys.fresh.exec (sleepAll n)).pc n = Pc.idle := by simp [h3 n]
    obtain ⟨g1, g2, g3⟩ := sleep_one _ n hpc h2 h1
    simp only [sleepAll, exec_append]
    refine ⟨g1, g2, fun t => ?_⟩
    rw [g3]
    by_cases ht : t = n
    · subst ht
      simp
    · rw [Function.update_noteq ht, h3 t]
      have : t < n + 1 ↔ t < n := by omega
      simp [this]

theorem exec_resumeAll (s : WbSys) (n m : Nat) (hmn : m ≤ n) (hd : s.wb_done = true)
    (hm : s.wb_mtx = none)
    (hpc : ∀ t, s.pc t = if t < n then Pc.wait_relock else Pc.idle) :
    (s.exec (resumeAll m)).wb_done = true ∧
    (s.exec (resumeAll m)).wb_mtx = none ∧
    ∀ t, (s.exec (resumeAll m)).pc t
      = if t < m then Pc.returned else if t < n then Pc.wait_relock else Pc.idle := by
  induction m with
  | zero => simpa [resumeAll, exec_nil, hd, hm] using hpc
  | succ m ih =>
    obtain ⟨h1, h2, h3⟩ := ih (by omega)
    have hp : (s.exec (resumeAll m)).pc m = Pc.wait_relock := by
      rw [h3 m]
      have : m < n := by omega
      simp [this]
    obtain ⟨g1, g2, g3⟩ := resume_one _ m hp h2 h1
    simp only [resumeAll, exec_append]
    refine ⟨g1, g2, fun t => ?_⟩
    rw [g3]
    by_cases ht : t = m
    · subst ht
      simp
    · rw [Function.update_noteq ht, h3 t]
      have : t < m + 1 ↔ t < m := by omega
      simp [this]

/-- The scenario of C4 for `n` sleeping waiters and a `done` by thread `d`. -/
theorem scenario_all_return (n d : Nat) (hnd : n ≤ d) :
    (∀ t, t < n → (WbSys.fresh.exec (sleepAll n)).pc t = Pc.wait_sleep) ∧
    (∀ t, t < n →
      (WbSys.fresh.exec (sleepAll n ++ doneCall d ++ resumeAll n)).pc t = Pc.returned) := by
  obtain ⟨h1, h2, h3⟩ := exec_sleepAll n
  refine ⟨fun t ht => by simp [h3 t, ht], fun t ht => ?_⟩
  have hpc : (WbSys.fresh.exec (sleepAll n)).pc d = Pc.idle := by
    rw [h3 d]
    have : ¬ d < n := by omega
    simp [this]
  obtain ⟨g1, g2, g3⟩ := done_one _ d hpc h2
  have hpc2 : ∀ u, ((WbSys.fresh.exec (sleepAll n)).exec (doneCall d)).pc u
      = if u < n then Pc.wait_relock else Pc.idle := by
    intro u
    rw [g3]
    simp only [h3 u]
    by_cases hu : u < n <;> simp [hu]
  obtain ⟨_, _, k3⟩ := exec_resumeAll _ n n (le_refl n) g1 g2 hpc2
  rw [exec_append, exec_append, k3 t]
  simp [ht]

/-- C4: several threads use one waitblock, interleaved in any way, with
spurious wake-ups.  (1) Once a `nni_waitblock_done` call, by any thread, has
executed its `nni_cv_wake`, the flag is true and no thread is asleep in
`nni_cv_wait`, and this stays so whatever happens next: no wake-up is missed,
also by a thread that was entering `nni_waitblock_wait` meanwhile.  (2) With the
flag true, a thread inside `nni_waitblock_wait` that is not asleep returns
within three statements of its own once the mutex is free or its own.  (3) A
thread that owns the mutex releases it within three statements of its own.
(4) For every number `n` of threads asleep in `nni_waitblock_wait`, one call of
`nni_waitblock_done` by another thread `d`, then three statements of every
waiter, and every waiter has returned.  (5) Between a waiter's test of the flag
and its call of `nni_cv_wait` the flag is still false and no
`nni_waitblock_done` is past its `nni_mtx_lock`: the test and the sleep cannot
be separated by a `done`. -/
theorem nni_waitblock_done_wakes_all_waiters :
    (∀ (acts1 acts2 : List Act) (d : Nat),
        (WbSys.fresh.exec acts1).pc d = Pc.done_unlock →
        (WbSys.fresh.exec (acts1 ++ acts2)).wb_done = true ∧
          ∀ t, (WbSys.fresh.exec (acts1 ++ acts2)).pc t ≠ Pc.wait_sleep) ∧
    (∀ (acts : List Act) (t : Nat),
        (WbSys.fresh.exec acts).wb_done = true →
        (WbSys.fresh.exec acts).pc t ≠ Pc.wait_sleep →
        ((WbSys.fresh.exec acts).pc t).inWait = true →
        ((WbSys.fresh.exec acts).wb_mtx = none ∨ (WbSys.fresh.exec acts).wb_mtx = some t) →
        (WbSys.fresh.exec (acts ++ [Act.step t, Act.step t, Act.step t])).pc t = Pc.returned ∧
          (WbSys.fresh.exec (acts ++ [Act.step t, Act.step t, Act.step t])).wb_mtx = none) ∧
    (∀ (acts : List Act) (h : Nat),
        (WbSys.fresh.exec acts).wb_mtx = some h →
        (WbSys.fresh.exec (acts ++ [Act.step h, Act.step h, Act.step h])).wb_mtx = none) ∧
    (∀ (n d : Nat), n ≤ d →
        (∀ t, t < n → (WbSys.fresh.exec (sleepAll n)).pc t = Pc.wait_sleep) ∧
        (∀ t, t < n →
          (WbSys.fresh.exec (sleepAll n ++ doneCall d ++ resumeAll n)).pc t = Pc.returned)) ∧
    (∀ (acts : List Act) (t : Nat),
        (WbSys.fresh.exec acts).pc t = Pc.wait_cvwait →
        (WbSys.fresh.exec acts).wb_done = false ∧
          ∀ d, (WbSys.fresh.exec acts).pc d ≠ Pc.done_set ∧
            (WbSys.fresh.exec acts).pc d ≠ Pc.done_wake ∧
            (WbSys.fresh.exec acts).pc d ≠ Pc.done_unlock) := by
  refine ⟨?_, ?_, ?_, scenario_all_return, ?_⟩
  rotate_left 3
  · intro acts t ht
    have hi := inv_exec WbSys.fresh acts inv_fresh
    have hown : (WbSys.fresh.exec acts).wb_mtx = some t :=
      (hi.mutex t).2 (by simp [ht, Pc.holds])
    have hnh := others_hold_not _ t hi hown
    refine ⟨hi.parked t ht, fun d => ?_⟩
    by_cases hdt : d = t
    · subst hdt
      simp [ht]
    · have := hnh d hdt
      refine ⟨?_, ?_, ?_⟩ <;> intro h <;> rw [h] at this <;> simp [Pc.holds] at this
  · intro acts1 acts2 d hd
    have hi := inv_exec WbSys.fresh acts1 inv_fresh
    have hflag := hi.flag d (Or.inr (Or.inl hd))
    have hown : (WbSys.fresh.exec acts1).wb_mtx = some d :=
      (hi.mutex d).2 (by simp [hd, Pc.holds])
    have hs : ∀ t, (WbSys.fresh.exec acts1).pc t ≠ Pc.wait_sleep := by
      intro t ht
      obtain ⟨e, he⟩ := hi.asleep t ht hflag
      have hown2 : (WbSys.fresh.exec acts1).wb_mtx = some e :=
        (hi.mutex e).2 (by simp [he, Pc.holds])
      rw [hown] at hown2
      simp only [Option.some.injEq] at hown2
      subst hown2
      rw [hd] at he
      cases he
    rw [exec_append]
    exact awake_exec _ acts2 hi hflag hs
  · intro acts t hd hs hw hm
    rw [exec_append]
    exact wait_returns_in_three _ t (inv_exec WbSys.fresh acts inv_fresh) hd hs hw hm
  · intro acts h hm
    rw [exec_append]
    exact holder_releases_in_three _ h (inv_exec WbSys.fresh acts inv_fresh) hm

/-- Witness for C4: thread 0 has found the flag false and is about to call
`nni_cv_wait` when thread 2 calls `nni_waitblock_done` and has to wait for the
mutex; thread 1 enters `nni_waitblock_wait` while thread 2 is inside
`nni_waitblock_done`. -/
theorem nni_waitblock_done_wakes_all_waiters_witness :
    ((WbSys.fresh.exec ([Act.call_wait 0, Act.step 0, Act.step 0, Act.call_done 2, Act.step 2,
          Act.step 0, Act.call_wait 1, Act.step 2, Act.step 2, Act.step 1, Act.step 2]
        ++ [Act.step 1, Act.step 2, Act.step 1, Act.step 0])).wb_done = true ∧
      ∀ t, (WbSys.fresh.exec ([Act.call_wait 0, Act.step 0, Act.step 0, Act.call_done 2, Act.step 2,
          Act.step 0, Act.call_wait 1, Act.step 2, Act.step 2, Act.step 1, Act.step 2]
        ++ [Act.step 1, Act.step 2, Act.step 1, Act.step 0])).pc t ≠ Pc.wait_sleep) ∧
    ((WbSys.fresh.exec ([Act.call_wait 0, Act.step 0, Act.step 0, Act.call_done 2, Act.step 2,
          Act.step 0, Act.call_wait 1, Act.step 2, Act.step 2, Act.step 1, Act.step 2,
          Act.step 2]
        ++ [Act.step 1, Act.step 1, Act.step 1])).pc 1 = Pc.returned ∧
      (WbSys.fresh.exec ([Act.call_wait 0, Act.step 0, Act.step 0, Act.call_done 2, Act.step 2,
          Act.step 0, Act.call_wait 1, Act.step 2, Act.step 2, Act.step 1, Act.step 2,
          Act.step 2]
        ++ [Act.step 1, Act.step 1, Act.step 1])).wb_mtx = none) ∧
    (WbSys.fresh.exec ([Act.call_wait 0, Act.step 0, Act.call_done 2]
        ++ [Act.step 0, Act.step 0, Act.step 0])).wb_mtx = none ∧
    ((∀ t, t < 3 → (WbSys.fresh.exec (sleepAll 3)).pc t = Pc.wait_sleep) ∧
      (∀ t, t < 3 →
        (WbSys.fresh.exec (sleepAll 3 ++ doneCall 7 ++ resumeAll 3)).pc t = Pc.returned)) ∧
    (WbSys.fresh.exec [Act.call_wait 0, Act.step 0, Act.step 0, Act.call_done 2,
        Act.step 2]).pc 0 = Pc.wait_cvwait ∧
    (WbSys.fresh.exec [Act.call_wait 0, Act.step 0, Act.step 0, Act.call_done 2,
        Act.step 2]).pc 2 = Pc.done_lock ∧
    ((WbSys.fresh.exec [Act.call_wait 0, Act.step 0, Act.step 0, Act.call_done 2,
        Act.step 2]).wb_done = false ∧
      ∀ d, (WbSys.fresh.exec [Act.call_wait 0, Act.step 0, Act.step 0, Act.call_done 2,
          Act.step 2]).pc d ≠ Pc.done_set ∧
        (WbSys.fresh.exec [Act.call_wait 0, Act.step 0, Act.step 0, Act.call_done 2,
          Act.step 2]).pc d ≠ Pc.done_wake ∧
        (WbSys.fresh.exec [Act.call_wait 0, Act.step 0, Act.step 0, Act.call_done 2,
          Act.step 2]).pc d ≠ Pc.done_unlock) :=
  ⟨nni_waitblock_done_wakes_all_waiters.1
      [Act.call_wait 0, Act.step 0, Act.step 0, Act.call_done 2, Act.step 2,
          Act.step 0, Act.call_wait 1, Act.step 2, Act.step 2, Act.step 1, Act.step 2]
      [Act.step 1, Act.step 2, Act.step 1, Act.step 0] 2 (by decide),
   nni_waitblock_done_wakes_all_waiters.2.1
      [Act.call_wait 0, Act.step 0, Act.step 0, Act.call_done 2, Act.step 2,
          Act.step 0, Act.call_wait 1, Act.step 2, Act.step 2, Act.step 1, Act.step 2,
          Act.step 2]
      1 (by decide) (by decide) (by decide) (by decide),
   nni_waitblock_done_wakes_all_waiters.2.2.1
      [Act.call_wait 0, Act.step 0, Act.call_done 2] 0 (by decide),
   nni_waitblock_done_wakes_all_waiters.2.2.2.1 3 7 (by decide),
   by decide, by decide,
   nni_waitblock_done_wakes_all_waiters.2.2.2.2
      [Act.call_wait 0, Act.step 0, Act.step 0, Act.call_done 2, Act.step 2] 0 (by decide)⟩

/-! ### Lemmas on `matches` -/

theorem toNat_ofNat_small (n : Nat) (h : n < 0xd800) : (Char.ofNat n).toNat = n := by
  have hv : n.isValidChar := Or.inl h
  simp [Char.ofNat, hv, Char.ofNatAux, Char.toNat, UInt32.toNat]

theorem tolower_eq_dot (c : Char) : tolower c = '.' ↔ c = '.' := by
  unfold tolower
  split
  · rename_i h
    constructor
    · intro h1
      have h2 := congrArg Char.toNat h1
      rw [toNat_ofNat_small _ (by omega)] at h2
      simp at h2
      omega
    · intro h1
      subst h1
      simp at h
  · rfl

theorem strchr_from_some (xs : List Char) (i : Nat) (c : Char) (x : Nat)
    (hc : c ≠ '\x00') (h : strchr_from xs i c = some x) :
    ∃ a b, xs = a ++ c :: b ∧ x = i + a.length := by
  induction xs generalizing i with
  | nil => simp [strchr_from, hc] at h
  | cons y ys ih =>
    simp only [strchr_from] at h
    split at h
    · rename_i hy
      simp only [Option.some.injEq] at h
      exact ⟨[], ys, by simp [hy], by simp [h]⟩
    · obtain ⟨a, b, h1, h2⟩ := ih (i + 1) h
      exact ⟨y :: a, b, by simp [h1], by simp [h2]; omega⟩

theorem strchr_from_none (xs : List Char) (i : Nat) (c : Char)
    (h : strchr_from xs i c = none) : c ∉ xs := by
  induction xs generalizing i with
  | nil => simp
  | cons y ys ih =>
    simp only [strchr_from] at h
    split at h
    · cases h
    · rename_i hy
      have := ih (i + 1) h
      simp only [List.mem_cons, not_or]
      exact ⟨fun h1 => hy h1.symm, this⟩

theorem strchr_append (pre suf : List Char) (c : Char) :
    strchr (pre ++ suf) pre.length c = some (strchr_from suf pre.length c) := by
  simp [strchr]

/-- The first loop of `matches` ends with `ptr` just after a separator (or
where it started) and no separator after `ptr`. -/
theorem skip_dirs_spec (fuel : Nat) (pre suf : List Char) (hf : suf.length < fuel) :
    ∃ pre2 suf2, pre ++ suf = pre2 ++ suf2 ∧
      skip_dirs fuel (pre ++ suf) pre.length = some pre2.length ∧
      (∀ c ∈ suf2, isSep c = false) ∧
      (pre2 = pre ∨ ∃ q s, pre2 = q ++ [s] ∧ isSep s = true) := by
  induction fuel generalizing pre suf with
  | zero => omega
  | succ fuel ih =>
    have hstep : ∀ (c : Char) (x : Nat), c ≠ '\x00' → isSep c = true →
        strchr_from suf pre.length c = some x →
        ∃ pre2 suf2, pre ++ suf = pre2 ++ suf2 ∧
          skip_dirs fuel (pre ++ suf) (x + 1) = some pre2.length ∧
          (∀ c ∈ suf2, isSep c = false) ∧
          (pre2 = pre ∨ ∃ q s, pre2 = q ++ [s] ∧ isSep s = true) := by
      intro c x hc hsep hx
      obtain ⟨a, b, h1, h2⟩ := strchr_from_some suf pre.length c x hc hx
      have hlen : b.length < fuel := by
        have : suf.length = a.length + (b.length + 1) := by simp [h1]
        omega
      obtain ⟨pre2, suf2, g1, g2, g3, g4⟩ := ih (pre ++ a ++ [c]) b hlen
      have e1 : pre ++ suf = pre ++ a ++ [c] ++ b := by simp [h1]
      have e2 : x + 1 = (pre ++ a ++ [c]).length := by simp [h2]; omega
      refine ⟨pre2, suf2, by rw [e1, g1], by rw [e1, e2, g2], g3, Or.inr ?_⟩
      rcases g4 with g4 | g4
      · exact ⟨pre ++ a, c, g4, hsep⟩
      · exact g4
    simp only [skip_dirs, strchr_append]
    cases h1 : strchr_from suf pre.length '/' with
    | some x => exact hstep '/' x (by decide) (by decide) h1
    | none =>
      cases h2 : strchr_from suf pre.length '\\' with
      | some x => exact hstep '\\' x (by decide) (by decide) h2
      | none =>
        cases h3 : strchr_from suf pre.length ':' with
        | some x => exact hstep ':' x (by decide) (by decide) h3
        | none =>
          refine ⟨pre, suf, rfl, rfl, ?_, Or.inl rfl⟩
          intro c hc
          have n1 := strchr_from_none _ _ _ h1
          have n2 := strchr_from_none _ _ _ h2
          have n3 := strchr_from_none _ _ _ h3
          simp only [isSep, Bool.or_eq_false_iff, decide_eq_false_iff_not]
          exact ⟨⟨fun h => n1 (h ▸ hc), fun h => n2 (h ▸ hc)⟩, fun h => n3 (h ▸ hc)⟩

theorem lastComponent_eq (pre suf : List Char) (hs : ∀ c ∈ suf, isSep c = false)
    (hp : pre = [] ∨ ∃ q s, pre = q ++ [s] ∧ isSep s = true) :
    lastComponent (pre ++ suf) = suf := by
  unfold lastComponent
  have hall : ∀ a ∈ suf.reverse, (fun c => !isSep c) a = true := by
    intro a ha
    simp [hs a (by simpa using ha)]
  rw [List.reverse_append, List.takeWhile_append_of_pos hall]
  rcases hp with hp | ⟨q, s, hp, hsep⟩
  · simp [hp]
  · simp [hp, hsep]

theorem cstr_read_append (pre suf : List Char) :
    cstr_read (pre ++ suf) pre.length = some (suf.headD '\x00') := by
  cases suf with
  | nil => simp [cstr_read]
  | cons c cs =>
    have h : (pre ++ c :: cs)[pre.length]? = some c := by
      rw [List.getElem?_append_right (le_refl _)]
      simp
    simp [cstr_read, List.getD_eq_getElem?_getD, h]

/-- What the comparison loop and the `switch` of `matches` compute on the rest
`suf` of `arg`. -/
theorem matches_cmp_spec (name pre suf : List Char) (hsuf : '\x00' ∉ suf)
    (hname : ∀ n ∈ name, tolower '\x00' ≠ n) :
    ∃ b, matches_cmp (pre ++ suf) pre.length name = some b ∧
      (b = true ↔
        (suf.map tolower = name ∨ ∃ ext, suf.map tolower = name ++ '.' :: ext)) := by
  induction name generalizing pre suf with
  | nil =>
    simp only [matches_cmp, cstr_read_append]
    cases suf with
    | nil => exact ⟨_, rfl, by simp⟩
    | cons c cs =>
      have hc : c ≠ '\x00' := fun h => hsuf (by simp [h])
      exact ⟨_, rfl, by simp [hc, tolower_eq_dot]⟩
  | cons n name ih =>
    simp only [matches_cmp, cstr_read_append]
    cases suf with
    | nil =>
      have := hname n (by simp)
      exact ⟨false, by simp [this], by simp⟩
    | cons c cs =>
      have hcs : '\x00' ∉ cs := fun h => hsuf (by simp [h])
      have hn : ∀ m ∈ name, tolower '\x00' ≠ m := fun m hm => hname m (by simp [hm])
      have e1 : pre ++ c :: cs = (pre ++ [c]) ++ cs := by simp
      have e2 : pre.length + 1 = (pre ++ [c]).length := by simp
      by_cases hcn : tolower c = n
      · obtain ⟨b, hb1, hb2⟩ := ih (pre ++ [c]) cs hcs hn
        refine ⟨b, ?_, ?_⟩
        · simp only [List.headD_cons, hcn, ne_eq, not_true_eq_false, if_false]
          rw [e1, e2, hb1]
        · rw [hb2]
          simp [hcn]
      · exact ⟨false, by simp [hcn], by simp [hcn]⟩

/-- The function `matches` always returns, without reading `arg` beyond its
terminator, and returns what the claim says. -/
theorem perf_matches_spec (arg name : List Char) (harg : '\x00' ∉ arg)
    (hname : ∀ n ∈ name, tolower '\x00' ≠ n) :
    ∃ b, perf_matches arg name = some b ∧ (b = true ↔ NameMatches arg name) := by
  obtain ⟨pre2, suf2, g1, g2, g3, g4⟩ := skip_dirs_spec (arg.length + 1) [] arg (by omega)
  simp only [List.nil_append, List.length_nil] at g1 g2
  have hlc : lastComponent arg = suf2 := by
    rw [g1]
    apply lastComponent_eq _ _ g3
    rcases g4 with g4 | g4
    · exact Or.inl g4
    · exact Or.inr g4
  have hsuf : '\x00' ∉ suf2 := fun h => harg (by rw [g1]; simp [h])
  obtain ⟨b, hb1, hb2⟩ := matches_cmp_spec name pre2 suf2 hsuf hname
  refine ⟨b, ?_, ?_⟩
  · unfold perf_matches
    rw [g2]
    simp only
    rw [g1, hb1]
  · rw [hb2, NameMatches, hlc]

/-! ### C10 -/

/-- C10: for every ASCII string `arg` and every non-empty `name` made of
lowercase letters and `_`, `matches(arg, name)` returns (it never reads `arg`
beyond its terminating NUL, whatever the lengths), and it returns true exactly
when the part of `arg` after the last `/`, `\` or `:`, in lower case, is `name`
or starts with `name` immediately followed by `.`. -/
theorem matches_compares_program_name (arg name : List Char)
    (harg : ∀ c ∈ arg, c ≠ '\x00' ∧ c.toNat < 128)
    (hne : name ≠ [])
    (hname : ∀ n ∈ name, (97 ≤ n.toNat ∧ n.toNat ≤ 122) ∨ n = '_') :
    ∃ b, perf_matches arg name = some b ∧ (b = true ↔ NameMatches arg name) := by
  have _ := hne
  apply perf_matches_spec
  · intro h
    exact (harg _ h).1 rfl
  · intro n hn
    have h0 : tolower '\x00' = '\x00' := by decide
    rw [h0]
    rcases hname n hn with h | h
    · intro h1
      rw [← h1] at h
      simp at h
    · rw [h]
      decide

/-- Witness for C10: a path, upper case and an extension; and a last component
shorter than the name. -/
theorem matches_compares_program_name_witness :
    (∃ b, perf_matches "C:/bin\\Remote_LAT.exe".toList "remote_lat".toList = some b ∧
      (b = true ↔ NameMatches "C:/bin\\Remote_LAT.exe".toList "remote_lat".toList)) ∧
    (∃ b, perf_matches "bin/lat".toList "remote_lat".toList = some b ∧
      (b = true ↔ NameMatches "bin/lat".toList "remote_lat".toList)) ∧
    perf_matches "C:/bin\\Remote_LAT.exe".toList "remote_lat".toList = some true ∧
    perf_matches "bin/lat".toList "remote_lat".toList = some false :=
  ⟨matches_compares_program_name "C:/bin\\Remote_LAT.exe".toList "remote_lat".toList
      (by decide) (by decide) (by decide),
   matches_compares_program_name "bin/lat".toList "remote_lat".toList
      (by decide) (by decide) (by decide),
   by decide, by decide⟩

/-! ### The mode names exclude one another -/

theorem takeWhile_not_dot (n ext : List Char) (h : '.' ∉ n) :
    (n ++ '.' :: ext).takeWhile (fun c => c != '.') = n := by
  have hall : ∀ a ∈ n, (fun c => c != '.') a = true := by
    intro a ha
    have : a ≠ '.' := fun h1 => h (h1 ▸ ha)
    simpa using this
  rw [List.takeWhile_append_of_pos hall]
  simp

theorem nameMatches_unique (arg n1 n2 : List Char) (h1 : NameMatches arg n1)
    (h2 : NameMatches arg n2) (hd1 : '.' ∉ n1) (hd2 : '.' ∉ n2) : n1 = n2 := by
  rcases h1 with h1 | ⟨e1, h1⟩ <;> rcases h2 with h2 | ⟨e2, h2⟩
  · rw [← h1, ← h2]
  · exfalso
    apply hd1
    rw [← h1, h2]
    simp
  · exfalso
    apply hd2
    rw [← h2, h1]
    simp
  · have g1 := takeWhile_not_dot n1 e1 hd1
    have g2 := takeWhile_not_dot n2 e2 hd2
    rw [← h1] at g1
    rw [← h2] at g2
    rw [← g1, ← g2]

theorem modeNames_wellformed :
    ∀ n ∈ modeNames, '.' ∉ n ∧ ∀ c ∈ n, tolower '\x00' ≠ c := by
  decide

theorem perf_matches_own (arg x : List Char) (harg : '\x00' ∉ arg) (hx : x ∈ modeNames)
    (h : NameMatches arg x) : perf_matches arg x = some true := by
  obtain ⟨b, hb1, hb2⟩ := perf_matches_spec arg x harg (modeNames_wellformed x hx).2
  rw [hb1, hb2.2 h]

theorem perf_matches_other (arg x n : List Char) (harg : '\x00' ∉ arg) (hx : x ∈ modeNames)
    (hn : n ∈ modeNames) (hne : n ≠ x) (h : NameMatches arg x) :
    perf_matches arg n = some false := by
  obtain ⟨b, hb1, hb2⟩ := perf_matches_spec arg n harg (modeNames_wellformed n hn).2
  rw [hb1]
  cases b with
  | false => rfl
  | true =>
    exact absurd (nameMatches_unique arg n x (hb2.1 rfl) h (modeNames_wellformed n hn).1
      (modeNames_wellformed x hx).1) hne

/-! ### C5 -/

/-- C5: when `argv` has at least three elements and `argv[1]` is `-m`, `main`
picks the handler for `argv[2]` and calls it on `argv[3..]`, whatever `argv[0]`
is; for every other non-empty `argv` it picks the handler for `argv[0]` and
calls it on `argv[1..]`; each of the six mode names picks its own handler. -/
theorem main_selects_mode (long_bits : Nat) :
    (∀ argv : List (List Char), 3 ≤ argv.length → argv.get? 1 = some "-m".toList →
        main long_bits argv = dispatch long_bits (argv.getD 2 []) (argv.drop 3)) ∧
    (∀ (a0 b0 a2 : List Char) (rest : List (List Char)),
        main long_bits (a0 :: "-m".toList :: a2 :: rest) = dispatch long_bits a2 rest ∧
        main long_bits (a0 :: "-m".toList :: a2 :: rest)
          = main long_bits (b0 :: "-m".toList :: a2 :: rest)) ∧
    (∀ (a0 : List Char) (rest : List (List Char)),
        ¬ (3 ≤ (a0 :: rest).length ∧ (a0 :: rest).get? 1 = some "-m".toList) →
        main long_bits (a0 :: rest) = dispatch long_bits a0 rest) ∧
    (∀ args : List (List Char),
        dispatch long_bits "remote_lat".toList args = some (do_remote_lat long_bits args) ∧
        dispatch long_bits "local_lat".toList args = some (do_local_lat long_bits args) ∧
        dispatch long_bits "remote_thr".toList args = some (do_remote_thr long_bits args) ∧
        dispatch long_bits "local_thr".toList args = some (do_local_thr long_bits args) ∧
        dispatch long_bits "inproc_lat".toList args = some (do_inproc_lat long_bits args) ∧
        dispatch long_bits "inproc_thr".toList args = some (do_inproc_thr long_bits args)) ∧
    (∀ (prog : List Char) (args : List (List Char)), '\x00' ∉ prog →
        (NameMatches prog "remote_lat".toList →
          dispatch long_bits prog args = some (do_remote_lat long_bits args)) ∧
        (NameMatches prog "local_lat".toList →
          dispatch long_bits prog args = some (do_local_lat long_bits args)) ∧
        (NameMatches prog "remote_thr".toList →
          dispatch long_bits prog args = some (do_remote_thr long_bits args)) ∧
        (NameMatches prog "local_thr".toList →
          dispatch long_bits prog args = some (do_local_thr long_bits args)) ∧
        (NameMatches prog "inproc_lat".toList →
          dispatch long_bits prog args = some (do_inproc_lat long_bits args)) ∧
        (NameMatches prog "inproc_thr".toList →
          dispatch long_bits prog args = some (do_inproc_thr long_bits args))) := by
  refine ⟨?_, ?_, ?_, ?_, ?_⟩
  rotate_left 4
  · intro prog args hprog
    have own := fun x hx h => perf_matches_own prog x hprog hx h
    have oth := fun x n hx hn hne h => perf_matches_other prog x n hprog hx hn hne h
    refine ⟨?_, ?_, ?_, ?_, ?_, ?_⟩
    · intro h
      simp only [dispatch, matches_either, own _ (by decide) h]
    · intro h
      simp only [dispatch, matches_either, own _ (by decide) h,
        oth _ "remote_lat".toList (by decide) (by decide) (by decide) h,
        oth _ "latency_client".toList (by decide) (by decide) (by decide) h]
    · intro h
      simp only [dispatch, matches_either, own _ (by decide) h,
        oth _ "remote_lat".toList (by decide) (by decide) (by decide) h,
        oth _ "latency_client".toList (by decide) (by decide) (by decide) h,
        oth _ "local_lat".toList (by decide) (by decide) (by decide) h,
        oth _ "latency_server".toList (by decide) (by decide) (by decide) h,
        oth _ "local_thr".toList (by decide) (by decide) (by decide) h,
        oth _ "throughput_server".toList (by decide) (by decide) (by decide) h]
    · intro h
      simp only [dispatch, matches_either, own _ (by decide) h,
        oth _ "remote_lat".toList (by decide) (by decide) (by decide) h,
        oth _ "latency_client".toList (by decide) (by decide) (by decide) h,
        oth _ "local_lat".toList (by decide) (by decide) (by decide) h,
        oth _ "latency_server".toList (by decide) (by decide) (by decide) h]
    · intro h
      simp only [dispatch, matches_either, own _ (by decide) h,
        oth _ "remote_lat".toList (by decide) (by decide) (by decide) h,
        oth _ "latency_client".toList (by decide) (by decide) (by decide) h,
        oth _ "local_lat".toList (by decide) (by decide) (by decide) h,
        oth _ "latency_server".toList (by decide) (by decide) (by decide) h,
        oth _ "local_thr".toList (by decide) (by decide) (by decide) h,
        oth _ "throughput_server".toList (by decide) (by decide) (by decide) h,
        oth _ "remote_thr".toList (by decide) (by decide) (by decide) h,
        oth _ "throughput_client".toList (by decide) (by decide) (by decide) h,
        oth _ "inproc_thr".toList (by decide) (by decide) (by decide) h]
    · intro h
      simp only [dispatch, matches_either, own _ (by decide) h,
        oth _ "remote_lat".toList (by decide) (by decide) (by decide) h,
        oth _ "latency_client".toList (by decide) (by decide) (by decide) h,
        oth _ "local_lat".toList (by decide) (by decide) (by decide) h,
        oth _ "latency_server".toList (by decide) (by decide) (by decide) h,
        oth _ "local_thr".toList (by decide) (by decide) (by decide) h,
        oth _ "throughput_server".toList (by decide) (by decide) (by decide) h,
        oth _ "remote_thr".toList (by decide) (by decide) (by decide) h,
        oth _ "throughput_client".toList (by decide) (by decide) (by decide) h]
  · intro argv h1 h2
    unfold main
    rw [if_pos ⟨h1, h2⟩]
  · intro a0 b0 a2 rest
    have h : ∀ x : List Char, main long_bits (x :: "-m".toList :: a2 :: rest)
        = dispatch long_bits a2 rest := by
      intro x
      unfold main
      rw [if_pos ⟨by simp, rfl⟩]
      rfl
    exact ⟨h a0, by rw [h a0, h b0]⟩
  · intro a0 rest h
    unfold main
    rw [if_neg h]
  · intro args
    have m1 : matches_either "remote_lat".toList "remote_lat".toList "latency_client".toList
        = some true := by decide
    have m2 : matches_either "local_lat".toList "remote_lat".toList "latency_client".toList
        = some false := by decide
    have m3 : matches_either "local_lat".toList "local_lat".toList "latency_server".toList
        = some true := by decide
    have m4 : matches_either "remote_thr".toList "remote_lat".toList "latency_client".toList
        = some false := by decide
    have m5 : matches_either "remote_thr".toList "local_lat".toList "latency_server".toList
        = some false := by decide
    have m6 : matches_either "remote_thr".toList "local_thr".toList "throughput_server".toList
        = some false := by decide
    have m7 : matches_either "remote_thr".toList "remote_thr".toList "throughput_client".toList
        = some true := by decide
    have m8 : matches_either "local_thr".toList "remote_lat".toList "latency_client".toList
        = some false := by decide
    have m9 : matches_either "local_thr".toList "local_lat".toList "latency_server".toList
        = some false := by decide
    have m10 : matches_either "local_thr".toList "local_thr".toList "throughput_server".toList
        = some true := by decide
    have m11 : matches_either "inproc_lat".toList "remote_lat".toList "latency_client".toList
        = some false := by decide
    have m12 : matches_either "inproc_lat".toList "local_lat".toList "latency_server".toList
        = some false := by decide
    have m13 : matches_either "inproc_lat".toList "local_thr".toList "throughput_server".toList
        = some false := by decide
    have m14 : matches_either "inproc_lat".toList "remote_thr".toList "throughput_client".toList
        = some false := by decide
    have m15 : perf_matches "inproc_lat".toList "inproc_thr".toList = some false := by decide
    have m16 : perf_matches "inproc_lat".toList "inproc_lat".toList = some true := by decide
    have m17 : matches_either "inproc_thr".toList "remote_lat".toList "latency_client".toList
        = some false := by decide
    have m18 : matches_either "inproc_thr".toList "local_lat".toList "latency_server".toList
        = some false := by decide
    have m19 : matches_either "inproc_thr".toList "local_thr".toList "throughput_server".toList
        = some false := by decide
    have m20 : matches_either "inproc_thr".toList "remote_thr".toList "throughput_client".toList
        = some false := by decide
    have m21 : perf_matches "inproc_thr".toList "inproc_thr".toList = some true := by decide
    refine ⟨?_, ?_, ?_, ?_, ?_, ?_⟩
    · simp only [dispatch, m1]
    · simp only [dispatch, m2, m3]
    · simp only [dispatch, m4, m5, m6, m7]
    · simp only [dispatch, m8, m9, m10]
    · simp only [dispatch, m11, m12, m13, m14, m15, m16]
    · simp only [dispatch, m17, m18, m19, m20, m21]

/-- Witness for C5: the `-m` override with a different invocation name, and an
invocation by name with two arguments only. -/
theorem main_selects_mode_witness :
    main 64 ["local_lat".toList, "-m".toList, "remote_thr".toList, "tcp://h:1".toList,
        "64".toList, "10".toList]
      = dispatch 64 (["local_lat".toList, "-m".toList, "remote_thr".toList,
          "tcp://h:1".toList, "64".toList, "10".toList].getD 2 [])
          (["local_lat".toList, "-m".toList, "remote_thr".toList, "tcp://h:1".toList,
          "64".toList, "10".toList].drop 3) ∧
    main 64 ["inproc_lat".toList, "-m".toList] = dispatch 64 "inproc_lat".toList ["-m".toList] ∧
    main 64 ["local_lat".toList, "-m".toList, "remote_thr".toList, "tcp://h:1".toList,
        "64".toList, "10".toList]
      = some (Except.ok (Started.throughput_client "tcp://h:1".toList 64 10)) ∧
    dispatch 64 "/opt/nng/Local_Thr.exe".toList ["tcp://h:1".toList, "64".toList, "10".toList]
      = some (do_local_thr 64 ["tcp://h:1".toList, "64".toList, "10".toList]) :=
  ⟨(main_selects_mode 64).1 _ (by decide) (by decide),
   (main_selects_mode 64).2.2.1 "inproc_lat".toList ["-m".toList] (by decide),
   by decide,
   ((main_selects_mode 64).2.2.2.2 "/opt/nng/Local_Thr.exe".toList
      ["tcp://h:1".toList, "64".toList, "10".toList] (by decide)).2.2.2.1
      (Or.inr ⟨"exe".toList, by decide⟩)⟩

/-! ### Lemmas on `strtol` and `parse_int` -/

theorem wrap32_id (v : Int) (h0 : 0 ≤ v) (h1 : v ≤ 2 ^ 30) : wrap32 v = v := by
  unfold wrap32
  omega

theorem parse_int_range (w : Nat) (arg : List Char) (v : Int)
    (h : parse_int w arg = Except.ok v) : 0 ≤ v ∧ v ≤ 2 ^ 30 := by
  unfold parse_int at h
  simp only at h
  split at h
  · cases h
  · rename_i hc
    simp only [not_or, not_lt] at hc
    obtain ⟨h0, h1, _⟩ := hc
    simp only [Except.ok.injEq] at h
    rw [wrap32_id _ h0 h1] at h
    rw [← h]
    exact ⟨h0, h1⟩

/-- C7 (the code departs from it): `parse_int` returns 0 on the argument `0`,
and on `-0`, for a 64-bit and for a 32-bit `long` alike, although its comment
asks for a positive number; the upper bound `2^30` is accepted, the next number
is not. -/
theorem parse_int_accepts_zero :
    parse_int 64 "0".toList = Except.ok 0 ∧
    parse_int 32 "0".toList = Except.ok 0 ∧
    parse_int 64 "-0".toList = Except.ok 0 ∧
    parse_int 64 "1073741824".toList = Except.ok (2 ^ 30) ∧
    parse_int 64 "1073741825".toList = Except.error 2 ∧
    do_remote_lat 64 ["tcp://h:1".toList, "64".toList, "0".toList]
      = Except.ok (Started.latency_client "tcp://h:1".toList 64 0) := by
  decide

/-! ### C8 -/

theorem wrap32_pred (t : Nat) (h1 : 1 ≤ t) (h2 : t < 2 ^ 31) :
    wrap32 ((t : Int) - 1) = ((t - 1 : Nat) : Int) := by
  unfold wrap32
  omega

theorem tput_srv_run_spec (ms : List Msg) (d : tput_srv_data) (t : Nat)
    (hd : d.done = false) (ht : d.trips = (t : Int)) (h1 : 1 ≤ t) (h2 : t < 2 ^ 31)
    (hlen : ms.length ≤ t) (hsz : ∀ m ∈ ms, m.length = d.msgsize) :
    ∃ d', tput_srv_run d ms = Except.ok d' ∧
      (d'.done = true ↔ ms.length = t) ∧
      d'.recvs = d.recvs + min ms.length (t - 1) ∧
      d'.trips = ((t - ms.length : Nat) : Int) ∧
      d'.msgsize = d.msgsize := by
  induction ms generalizing d t with
  | nil =>
    refine ⟨d, rfl, ?_, by simp, by simpa using ht, rfl⟩
    simp only [hd, List.length_nil]
    constructor
    · intro h; cases h
    · intro h; omega
  | cons m ms ih =>
    have hm : m.length = d.msgsize := hsz m (by simp)
    have hw := wrap32_pred t h1 h2
    simp only [List.length_cons] at hlen
    by_cases hlast : t = 1
    · subst hlast
      have hms : ms = [] := by
        cases ms with
        | nil => rfl
        | cons x xs => simp at hlen
      subst hms
      refine ⟨{ d with trips := 0, done := true }, ?_, ?_, ?_, ?_, rfl⟩
      · simp [tput_srv_run, hd, tput_srv_cb, hm, ht, wrap32]
      · simp
      · simp
      · simp
    · have ht1 : 1 ≤ t - 1 := by omega
      obtain ⟨d', g1, g2, g4, g5, g6⟩ := ih
        { trips := ((t - 1 : Nat) : Int), msgsize := d.msgsize, done := false,
          recvs := d.recvs + 1 }
        (t - 1) rfl rfl ht1 (by omega) (by omega) (fun x hx => hsz x (by simp [hx]))
      refine ⟨d', ?_, ?_, ?_, ?_, g6⟩
      · have hne : ((t - 1 : Nat) : Int) ≠ 0 := by omega
        simp [tput_srv_run, hd, tput_srv_cb, hm, ht, hw, hne]
        exact g1
      · rw [g2]
        simp only [List.length_cons]
        omega
      · rw [g4]
        simp only [List.length_cons]
        omega
      · rw [g5]
        simp only [List.length_cons]
        congr 1
        omega

theorem tput_srv_run_done (d : tput_srv_data) (ms : List Msg)
    (hd : d.done = true) : tput_srv_run d ms = Except.ok d := by
  cases ms with
  | nil => rfl
  | cons m ms => simp [tput_srv_run, hd]

theorem tput_srv_run_append (d : tput_srv_data) (a b : List Msg) :
    tput_srv_run d (a ++ b)
      = match tput_srv_run d a with
        | Except.error e => Except.error e
        | Except.ok d' => tput_srv_run d' b := by
  induction a generalizing d with
  | nil => rfl
  | cons m a ih =>
    by_cases hd : d.done = true
    · simp [tput_srv_run, hd, tput_srv_run_done]
    · simp only [List.cons_append, tput_srv_run, hd]
      cases h1 : tput_srv_cb d 0 m with
      | error e => simp
      | ok d1 => simpa using ih d1

/-- C9: the throughput server asked for `C` messages of `S` bytes, every
receive completing successfully.  After the synchronisation message (of any
length) and `k <= C` invocations of `tput_srv_cb` on messages of `S` bytes the
done flag is set exactly when `k = C`; once it is set no callback runs any
more; a message of another length among the first `C` ends the process with
status 2, at that message. -/
theorem tput_srv_done_after_count (C S : Nat) (hC : 1 ≤ C) (hC2 : C < 2 ^ 31) :
    (∀ (sync : Msg) (ms : List Msg), (∀ m ∈ ms, m.length = S) → ms.length ≤ C →
      ∃ d, throughput_server S C (sync :: ms) = Except.ok d ∧
        (d.done = true ↔ ms.length = C) ∧ d.trips = ((C - ms.length : Nat) : Int)) ∧
    (∀ (sync : Msg) (ms : List Msg), (∀ m ∈ ms, m.length = S) → C ≤ ms.length →
      ∃ d, throughput_server S C (sync :: ms) = Except.ok d ∧ d.done = true ∧
        throughput_server S C (sync :: ms.take C) = Except.ok d) ∧
    (∀ (sync : Msg) (good : List Msg) (bad : Msg) (rest : List Msg),
      (∀ m ∈ good, m.length = S) → good.length < C → bad.length ≠ S →
      throughput_server S C (sync :: (good ++ bad :: rest)) = Except.error 2 ∧
      ∃ d, throughput_server S C (sync :: good) = Except.ok d ∧ d.done = false) := by
  have hs := fun (ms : List Msg) (h1 : ∀ m ∈ ms, m.length = S) (h2 : ms.length ≤ C) =>
    tput_srv_run_spec ms { trips := (C : Int), msgsize := S, done := false, recvs := 1 } C
      rfl rfl hC hC2 h2 h1
  refine ⟨?_, ?_, ?_⟩
  · intro sync ms h1 h2
    obtain ⟨d, g1, g2, _, g4, _⟩ := hs ms h1 h2
    exact ⟨d, g1, g2, g4⟩
  · intro sync ms h1 h2
    have hlen : (ms.take C).length = C := by simp [h2]
    obtain ⟨d, g1, g2, _, _, _⟩ := hs (ms.take C)
      (fun m hm => h1 m (List.mem_of_mem_take hm)) (by omega)
    have hd : d.done = true := g2.2 hlen
    refine ⟨d, ?_, hd, g1⟩
    have := tput_srv_run_append { trips := (C : Int), msgsize := S, done := false, recvs := 1 }
      (ms.take C) (ms.drop C)
    rw [List.take_append_drop, g1] at this
    simp only [throughput_server]
    rw [this]
    exact tput_srv_run_done d _ hd
  · intro sync good bad rest h1 h2 h3
    obtain ⟨d, g1, g2, _, _, g6⟩ := hs good h1 (by omega)
    have hd : d.done = false := by
      cases hdd : d.done
      · rfl
      · have := g2.1 hdd
        omega
    have hm : bad.length ≠ d.msgsize := by
      rw [g6]
      exact h3
    refine ⟨?_, d, g1, hd⟩
    simp only [throughput_server]
    rw [tput_srv_run_append, g1]
    simp [tput_srv_run, hd, tput_srv_cb, hm, die_status]

/-- Witness for C9: three messages of two bytes after an empty synchronisation
message. -/
theorem tput_srv_done_after_count_witness :
    (∃ d, throughput_server 2 (3 : Nat) ([] :: [[1, 2], [3, 4], [5, 6]]) = Except.ok d ∧
      (d.done = true ↔ [[1, 2], [3, 4], [5, 6]].length = 3) ∧
      d.trips = ((3 - [[1, 2], [3, 4], [5, 6]].length : Nat) : Int)) ∧
    (throughput_server 2 (3 : Nat) ([] :: ([[1, 2]] ++ [7] :: [[3, 4]])) = Except.error 2 ∧
      ∃ d, throughput_server 2 (3 : Nat) ([] :: [[1, 2]]) = Except.ok d ∧ d.done = false) ∧
    throughput_server 2 (3 : Nat) [[], [1, 2], [3, 4]]
      = Except.ok { trips := 1, msgsize := 2, done := false, recvs := 3 } ∧
    throughput_server 2 (3 : Nat) [[], [1, 2], [3, 4], [5, 6]]
      = Except.ok { trips := 0, msgsize := 2, done := true, recvs := 3 } :=
  ⟨(tput_srv_done_after_count 3 2 (by decide) (by decide)).1 [] [[1, 2], [3, 4], [5, 6]]
      (by decide) (by decide),
   (tput_srv_done_after_count 3 2 (by decide) (by decide)).2.2 [] [[1, 2]] [7] [[3, 4]]
      (by decide) (by decide) (by decide),
   by decide, by decide⟩

/-! ### C11 -/

/-- Between the two ends of what `parse_int` accepts the divisor is the
mathematical `2 * T` and positive. -/
theorem latency_divisor_inside (w : Nat) (arg : List Char) (T : Int)
    (h : parse_int w arg = Except.ok T) (h0 : T ≠ 0) (h1 : T ≠ 2 ^ 30) :
    latency_divisor T = 2 * T ∧ 0 < latency_divisor T := by
  obtain ⟨g0, g1⟩ := parse_int_range w arg T h
  have e : latency_divisor T = 2 * T := by
    unfold latency_divisor wrap32
    omega
  rw [e]
  exact ⟨rfl, by omega⟩

/-- C11 (the code departs from it): `parse_int` accepts the round-trip counts
`0` and `1073741824 = 2^30`, and `do_remote_lat` hands them to
`latency_client`; for `0` the divisor `trips * 2` is `0`, and for `2^30` the
product `2^31` is beyond the largest `int`, the 32-bit result being `-2^31`:
in neither case is the divisor the positive number `2 * T`.  One above the
lower end and one below the upper end it is. -/
theorem latency_divisor_at_the_ends :
    parse_int 64 "0".toList = Except.ok 0 ∧
    do_remote_lat 64 ["tcp://h:1".toList, "64".toList, "0".toList]
      = Except.ok (Started.latency_client "tcp://h:1".toList 64 0) ∧
    latency_divisor 0 = 0 ∧
    parse_int 64 "1073741824".toList = Except.ok (2 ^ 30) ∧
    do_remote_lat 64 ["tcp://h:1".toList, "64".toList, "1073741824".toList]
      = Except.ok (Started.latency_client "tcp://h:1".toList 64 (2 ^ 30)) ∧
    (2 : Int) ^ 31 - 1 < 2 * 2 ^ 30 ∧
    latency_divisor (2 ^ 30) = - 2 ^ 31 ∧
    latency_divisor 1 = 2 ∧
    latency_divisor (2 ^ 30 - 1) = 2 * (2 ^ 30 - 1) := by
  decide

end Nng
